import Mathlib

/-!
Verification of the entity-engine core: the hierarchical tree builder
(`hierarchical_tree.py`) and the engine data compiler (`engine_data.py`).
Python dicts that represent tree nodes are embedded as the nested
inductive `TreeNode`; stateful walks are embedded as explicit state
passing; Python exceptions (KeyError, NameError, UnboundLocalError,
RecursionError) are embedded as `Except` failures.  Recursions that the
source bounds only by Python's recursion limit take an explicit `fuel`
argument and fail with `"RecursionError"` when it runs out.
-/

set_option maxHeartbeats 1600000
set_option linter.unusedVariables false

namespace EngineEntities

/-- ASCII word character, Python's `[a-zA-Z0-9_]`. -/
def isWordAscii (c : Char) : Bool :=
  (97 ≤ c.toNat && c.toNat ≤ 122) || (65 ≤ c.toNat && c.toNat ≤ 90) ||
  (48 ≤ c.toNat && c.toNat ≤ 57) || c = '_'

/-- Collapse runs of two or more underscores into a single underscore
(`re.sub(r'_{2,}', '_', s)`). -/
def collapseUnderscores : List Char → List Char
  | [] => []
  | [c] => [c]
  | c1 :: c2 :: rest =>
    if c1 = '_' && c2 = '_' then collapseUnderscores (c2 :: rest)
    else c1 :: collapseUnderscores (c2 :: rest)

/-- `s.strip('_')`: drop leading and trailing underscores. -/
def stripUnderscores (l : List Char) : List Char :=
  ((l.dropWhile (· == '_')).reverse.dropWhile (· == '_')).reverse

/-- Embedding of `normalize_string`.  The Python NFKD-decompose +
ASCII-encode-ignore step is embedded as dropping non-ASCII characters
(exact on ASCII input, which is all the properties below use); then every
character outside `[a-zA-Z0-9_]` becomes `_`, underscore runs collapse,
leading/trailing underscores are stripped, and the result is lowercased. -/
def normalize_string (s : String) : String :=
  let ascii := s.data.filter (fun c => c.toNat < 128)
  let subbed := ascii.map (fun c => if isWordAscii c then c else '_')
  let collapsed := collapseUnderscores subbed
  let stripped := stripUnderscores collapsed
  String.mk (stripped.map Char.toLower)

/-- Embedding of the node dicts produced by `hierarchical_tree.py`:
`{key, description, fieldname, fieldname_data, type, path, dragandrop,
children}`. -/
inductive TreeNode where
  | mk (key description fieldname fieldname_data type path : String)
       (dragandrop : Bool) (children : List TreeNode)

def TreeNode.key : TreeNode → String
  | .mk k _ _ _ _ _ _ _ => k

def TreeNode.description : TreeNode → String
  | .mk _ d _ _ _ _ _ _ => d

def TreeNode.fieldname : TreeNode → String
  | .mk _ _ f _ _ _ _ _ => f

def TreeNode.fieldname_data : TreeNode → String
  | .mk _ _ _ fd _ _ _ _ => fd

def TreeNode.type : TreeNode → String
  | .mk _ _ _ _ t _ _ _ => t

def TreeNode.path : TreeNode → String
  | .mk _ _ _ _ _ p _ _ => p

def TreeNode.dragandrop : TreeNode → Bool
  | .mk _ _ _ _ _ _ dr _ => dr

def TreeNode.children : TreeNode → List TreeNode
  | .mk _ _ _ _ _ _ _ c => c

/-- Rebuild a node with a new path and new children. -/
def TreeNode.withPathChildren : TreeNode → String → List TreeNode → TreeNode
  | .mk k d f fd t _ dr _, p, cs => .mk k d f fd t p dr cs

def TreeNode.withChildren (n : TreeNode) (cs : List TreeNode) : TreeNode :=
  n.withPathChildren n.path cs

/-- The shallow `child_entity.copy()` with updated `description` and
temporary `path`, embedded as a value copy. -/
def TreeNode.withDescriptionPath : TreeNode → String → String → TreeNode
  | .mk k _ f fd t _ dr c, d, p => .mk k d f fd t p dr c

theorem TreeNode.sizeOf_children_lt (n : TreeNode) (c : TreeNode)
    (h : c ∈ n.children) : sizeOf c < sizeOf n := by
  cases n with
  | mk k d f fd t p dr cs =>
    simp only [TreeNode.children] at h
    have := List.sizeOf_lt_of_mem h
    simp only [TreeNode.mk.sizeOf_spec]
    omega

/-- Structural induction over `TreeNode` with the children quantified by
membership. -/
theorem TreeNode.inductionOn (motive : TreeNode → Prop)
    (h : ∀ k d f fd t p dr cs,
      (∀ c ∈ cs, motive c) → motive (.mk k d f fd t p dr cs))
    (n : TreeNode) : motive n := by
  have key : ∀ (m : Nat) (n : TreeNode), sizeOf n ≤ m → motive n := by
    intro m
    induction m with
    | zero =>
      intro n h0
      cases n with
      | mk k d f fd t p dr cs =>
        simp only [TreeNode.mk.sizeOf_spec] at h0
        omega
    | succ m ih =>
      intro n hle
      cases n with
      | mk k d f fd t p dr cs =>
        apply h
        intro c hc
        apply ih
        have := TreeNode.sizeOf_children_lt (.mk k d f fd t p dr cs) c hc
        omega
  exact key (sizeOf n) n le_rfl

mutual

/-- Embedding of `update_child_paths` applied to one child: the child's
path becomes `parent_path + "." + normalize_string(child.description)`
and its own children are updated against that new path. -/
def update_child_paths (parentPath : String) : TreeNode → TreeNode
  | .mk k d f fd t _ dr cs =>
    let p := parentPath ++ "." ++ normalize_string d
    .mk k d f fd t p dr (update_child_paths_list p cs)

def update_child_paths_list (parentPath : String) : List TreeNode → List TreeNode
  | [] => []
  | c :: rest =>
    update_child_paths parentPath c :: update_child_paths_list parentPath rest

end

/-- Embedding of `update_all_paths`: every root's path becomes
`normalize_string(description)` and all descendants are updated. -/
def update_all_paths (entities : List TreeNode) : List TreeNode :=
  entities.map (fun e =>
    let p := normalize_string e.description
    e.withPathChildren p (update_child_paths_list p e.children))

mutual

/-- The path invariant of claim C3 at a node: with `parent = none` the
node is a root and its path is `normalize_string description`; otherwise
its path is the parent's path, a dot, and its own normalized description;
and recursively for all children with this node as parent. -/
def pathInv (parent : Option String) : TreeNode → Bool
  | .mk _ d _ _ _ p _ cs =>
    (match parent with
     | none => p == normalize_string d
     | some pp => p == pp ++ "." ++ normalize_string d) &&
    pathInv_list (some p) cs

def pathInv_list (parent : Option String) : List TreeNode → Bool
  | [] => true
  | c :: rest => pathInv parent c && pathInv_list parent rest

end

theorem pathInv_list_eq_all (parent : Option String) (l : List TreeNode) :
    pathInv_list parent l = l.all (pathInv parent) := by
  induction l with
  | nil => rfl
  | cons c rest ih => rw [pathInv_list, List.all_cons, ih]

theorem update_child_paths_list_eq_map (parentPath : String)
    (l : List TreeNode) :
    update_child_paths_list parentPath l = l.map (update_child_paths parentPath) := by
  induction l with
  | nil => rfl
  | cons c rest ih => rw [update_child_paths_list, List.map_cons, ih]

theorem pathInv_of_update_child_paths (node : TreeNode) :
    ∀ parentPath : String,
      pathInv (some parentPath) (update_child_paths parentPath node) = true := by
  induction node using TreeNode.inductionOn with
  | h k d f fd t p dr cs ih =>
    intro parentPath
    rw [update_child_paths]
    rw [pathInv]
    simp only [beq_self_eq_true, Bool.true_and]
    rw [pathInv_list_eq_all, update_child_paths_list_eq_map, List.all_eq_true]
    intro x hx
    rw [List.mem_map] at hx
    obtain ⟨c, hc, rfl⟩ := hx
    exact ih c hc _

/-- C3: after the second pass `update_all_paths` over the assembled
forest, every node satisfies the path invariant: a root node's path
equals `normalize_string description`, and every non-root node's path
equals its parent's path concatenated with "." and the normalized form
of its own description. -/
theorem c3_update_all_paths_invariant (entities : List TreeNode) :
    (update_all_paths entities).all (pathInv none) = true := by
  rw [List.all_eq_true]
  intro e he
  rw [update_all_paths, List.mem_map] at he
  obtain ⟨r, hr, rfl⟩ := he
  cases r with
  | mk k d f fd t p dr cs =>
    simp only [TreeNode.description, TreeNode.children, TreeNode.withPathChildren]
    rw [pathInv]
    simp only [beq_self_eq_true, Bool.true_and]
    rw [pathInv_list_eq_all, update_child_paths_list_eq_map, List.all_eq_true]
    intro x hx
    rw [List.mem_map] at hx
    obtain ⟨c, hc, rfl⟩ := hx
    exact pathInv_of_update_child_paths c _

/-! ## Tree builder: `hierarchical_tree.py` -/

/-- The `type_mapping` dict of `map_field_type`. -/
def type_mapping : List (String × String) :=
  [("Data", "string"), ("Date", "date"), ("Datetime", "datetime"),
   ("Int", "numeric"), ("Float", "numeric"), ("Currency", "numeric"),
   ("Check", "boolean"), ("Select", "select"), ("Long Text", "text"),
   ("Small Text", "text"), ("Text", "text"), ("Text Editor", "text"),
   ("Table", "doctype")]

/-- Embedding of `map_field_type`: dict lookup with default `"string"`. -/
def map_field_type (fieldtype : String) : String :=
  (type_mapping.lookup fieldtype).getD "string"

/-- Embedding of the raw field dicts of the catalogue.  A missing
`fieldtype`/`label`/`fieldname`/`fieldname_data` key behaves like `""`
through the `.get` defaults used by the source; `options` keeps its
Python `None` as `none`. -/
structure FieldMeta where
  fieldname : String := ""
  label : String := ""
  fieldtype : String := ""
  options : Option String := none
  fieldname_data : String := ""

/-- `{"child": ..., "parent": ...}` entries of the specified mapping. -/
structure Mapping where
  child : String
  parent : String

/-- The catalogue `all_doctypes["all_doctypes"]`: an insertion-ordered
dict from doctype name to its field list. -/
abbrev Catalogue := List (String × List FieldMeta)

/-- `s.replace(" ", "_")`. -/
def replaceSpace (s : String) : String :=
  String.mk (s.data.map (fun c => if c = ' ' then '_' else c))

/-- One step of the mandatory-mapping dict construction:
`if k not in d: d[k] = []` followed by `d[k].append(v)`. -/
def multimap_add (m : List (String × List String)) (k v : String) :
    List (String × List String) :=
  if (m.lookup k).isNone then m ++ [(k, [v])]
  else m.map (fun kv => if kv.1 == k then (kv.1, kv.2 ++ [v]) else kv)

/-- `mandatory_parents` built by the loop in `build_tree`. -/
def build_mandatory_parents (ms : List Mapping) : List (String × List String) :=
  ms.foldl (fun m mp => multimap_add m mp.child mp.parent) []

/-- `mandatory_children` built by the loop in `build_tree`. -/
def build_mandatory_children (ms : List Mapping) : List (String × List String) :=
  ms.foldl (fun m mp => multimap_add m mp.parent mp.child) []

/-- `translations.get(key, default)`. -/
def transGet (translations : List (String × String)) (key dflt : String) : String :=
  (translations.lookup key).getD dflt

/-- The field-node dict built in the first loop of `create_doctype_entity`
and `process_doctype_fields`. -/
def mkFieldNode (f : FieldMeta) : TreeNode :=
  .mk (replaceSpace f.label) f.label f.fieldname f.fieldname_data
      (map_field_type f.fieldtype) (normalize_string f.label) true []

/-- The regular-field filter: `field.get("options") is None or
field.get("fieldtype") != "Table"`. -/
def isRegularField (f : FieldMeta) : Bool :=
  f.options.isNone || f.fieldtype != "Table"

/-- The field nodes the first loop appends for one doctype. -/
def regularFieldNodes (fields : List FieldMeta) : List TreeNode :=
  (fields.filter isRegularField).map mkFieldNode

mutual

/-- Embedding of `create_doctype_entity`.  The mutated `processed_doctypes`
set is threaded explicitly; `fuel` bounds the (unchecked) recursion depth,
standing in for Python's recursion limit. -/
def create_doctype_entity (fuel : Nat) (doctype_name : String)
    (cat : Catalogue) (mp mc : List (String × List String))
    (processed : List String) (translations : List (String × String)) :
    Except String (TreeNode × List String) :=
  match fuel with
  | 0 => .error "RecursionError"
  | fuel + 1 => do
    let processed := processed ++ [doctype_name]
    let doctype_key := replaceSpace doctype_name
    let translated_name := transGet translations doctype_key doctype_name
    let fieldChildren :=
      match cat.lookup doctype_name with
      | none => []
      | some fields => regularFieldNodes fields
    -- mandatory children loop
    let (children, processed) ←
      match mc.lookup doctype_name with
      | none => pure (fieldChildren, processed)
      | some childList =>
        childList.foldlM (fun (st : List TreeNode × List String) child_doctype => do
          let (children, processed) := st
          let child_key := replaceSpace child_doctype
          if children.any (fun c => c.key == child_key) then
            pure (children, processed)
          else if (cat.lookup child_doctype).isNone then
            pure (children, processed)
          else do
            let processed := processed ++ [child_doctype]
            let child_translated := transGet translations child_key child_doctype
            let child_entity : TreeNode :=
              .mk child_key child_translated child_doctype "" "doctype"
                 (normalize_string child_translated) false []
            let (child_entity, processed) ←
              process_doctype_fields fuel child_entity child_doctype cat
                (normalize_string child_translated) mp mc processed translations
            pure (children ++ [child_entity], processed))
          (fieldChildren, processed)
    -- option-based (inferred) relationship loop
    let (children, processed) ←
      match cat.lookup doctype_name with
      | none => pure (children, processed)
      | some fields =>
        fields.foldlM (fun (st : List TreeNode × List String) f => do
          let (children, processed) := st
          match f.options with
          | none => pure (children, processed)
          | some related_doctype =>
            if f.fieldtype != "Table" then pure (children, processed)
            else if (cat.lookup related_doctype).isNone then
              pure (children, processed)
            else if (mc.lookup doctype_name).getD [] |>.contains related_doctype then
              pure (children, processed)
            else if ((mp.lookup related_doctype).isSome &&
                     !((mp.lookup related_doctype).getD [] |>.contains doctype_name)) then
              pure (children, processed)
            else do
              let related_key := replaceSpace related_doctype
              let processed := processed ++ [related_doctype]
              let related_translated := transGet translations related_key related_doctype
              let child_entity : TreeNode :=
                .mk related_key related_translated related_doctype f.fieldname
                   "doctype" (normalize_string related_translated) false []
              let (child_entity, processed) ←
                process_doctype_fields fuel child_entity related_doctype cat
                  (normalize_string related_translated) mp mc processed translations
              pure (children ++ [child_entity], processed))
          (children, processed)
    pure (.mk doctype_key translated_name doctype_name "" "doctype"
            (normalize_string translated_name) false children, processed)

/-- Embedding of `process_doctype_fields`.  `base_path` is accepted and
ignored exactly as in the source.  The mandatory-children loop reads
`field.get("fieldname_data", "")` from the loop variable leaked by the
first loop (the last element of the field list); with an empty field list
that access raises `NameError`, embedded as `Except.error`. -/
def process_doctype_fields (fuel : Nat) (entity : TreeNode)
    (doctype_name : String) (cat : Catalogue) (base_path : String)
    (mp mc : List (String × List String)) (processed : List String)
    (translations : List (String × String)) :
    Except String (TreeNode × List String) :=
  match fuel with
  | 0 => .error "RecursionError"
  | fuel + 1 =>
    match cat.lookup doctype_name with
    | none => pure (entity, processed)
    | some fields => do
      let children := entity.children ++ regularFieldNodes fields
      let leaked := fields.getLast?
      -- mandatory children loop
      let (children, processed) ←
        match mc.lookup doctype_name with
        | none => pure (children, processed)
        | some childList =>
          childList.foldlM (fun (st : List TreeNode × List String) child_doctype => do
            let (children, processed) := st
            let child_key := replaceSpace child_doctype
            if children.any (fun c => c.key == child_key) then
              pure (children, processed)
            else if (cat.lookup child_doctype).isNone then
              pure (children, processed)
            else do
              let processed := processed ++ [child_doctype]
              let child_translated := transGet translations child_key child_doctype
              let fdata ← match leaked with
                | none => .error "NameError"
                | some lf => pure lf.fieldname_data
              let child_entity : TreeNode :=
                .mk child_key child_translated child_doctype fdata "doctype"
                   (normalize_string child_translated) false []
              let (child_entity, processed) ←
                process_doctype_fields fuel child_entity child_doctype cat
                  (normalize_string child_translated) mp mc processed translations
              pure (children ++ [child_entity], processed))
            (children, processed)
      -- option-based (inferred) relationship loop
      let (children, processed) ←
        fields.foldlM (fun (st : List TreeNode × List String) f => do
          let (children, processed) := st
          match f.options with
          | none => pure (children, processed)
          | some related_doctype =>
            if f.fieldtype != "Table" then pure (children, processed)
            else if (cat.lookup related_doctype).isNone then
              pure (children, processed)
            else if (mc.lookup doctype_name).getD [] |>.contains related_doctype then
              pure (children, processed)
            else if ((mp.lookup related_doctype).isSome &&
                     !((mp.lookup related_doctype).getD [] |>.contains doctype_name)) then
              pure (children, processed)
            else if children.any (fun c => c.key == replaceSpace related_doctype) then
              pure (children, processed)
            else do
              let related_key := replaceSpace related_doctype
              let processed := processed ++ [related_doctype]
              let related_translated := transGet translations related_key related_doctype
              let child_entity : TreeNode :=
                .mk related_key related_translated related_doctype f.fieldname_data
                   "doctype" (normalize_string related_translated) false []
              let (child_entity, processed) ←
                process_doctype_fields fuel child_entity related_doctype cat
                  (normalize_string related_translated) mp mc processed translations
              pure (children ++ [child_entity], processed))
          (children, processed)
      pure (entity.withPathChildren entity.path children, processed)

end

mutual

/-- Embedding of `find_entity_in_children`: check the node itself, then
depth-first its children, returning the first hit. -/
def find_entity_in_children (key : String) : TreeNode → Option TreeNode
  | .mk k d f fd t p dr cs =>
    if k == key then some (.mk k d f fd t p dr cs)
    else find_entity_in_children_list key cs

def find_entity_in_children_list (key : String) : List TreeNode → Option TreeNode
  | [] => none
  | c :: rest =>
    match find_entity_in_children key c with
    | some r => some r
    | none => find_entity_in_children_list key rest

end

/-- Embedding of `find_entity_by_key`: first match over the roots in
order, each root checked itself and then searched depth-first. -/
def find_entity_by_key (entities : List TreeNode) (key : String) :
    Option TreeNode :=
  match entities with
  | [] => none
  | e :: rest =>
    if e.key == key then some e
    else
      match find_entity_in_children_list key e.children with
      | some r => some r
      | none => find_entity_by_key rest key

mutual

/-- Embedding of the scrub performed by the removal pass on one root:
direct children with the removed key are filtered out, and
`remove_entity_from_children` filters them out of every deeper level. -/
def scrub_node (key_to_remove : String) : TreeNode → TreeNode
  | .mk k d f fd t p dr cs =>
    .mk k d f fd t p dr (scrub_list key_to_remove cs)

/-- Filter-and-recurse over a children list: children with the removed
key are dropped, the survivors are scrubbed recursively. -/
def scrub_list (key_to_remove : String) : List TreeNode → List TreeNode
  | [] => []
  | c :: rest =>
    if c.key == key_to_remove then scrub_list key_to_remove rest
    else scrub_node key_to_remove c :: scrub_list key_to_remove rest

end

/-- First pass of `apply_specified_mappings`: for every mapping, every
root other than the designated parent has the child key removed from its
children and, recursively, from all nested levels. -/
def removal_pass (entities : List TreeNode) (ms : List Mapping) : List TreeNode :=
  ms.foldl (fun es m =>
    es.map (fun e =>
      if e.key == replaceSpace m.parent then e
      else scrub_node (replaceSpace m.child) e)) entities

mutual

/-- Append `nc` to the children of the first node (depth-first) whose key
is `key`; embeds the in-place `parent_entity["children"].append(...)`
after `find_entity_by_key`. -/
def attach_node (key : String) (nc : TreeNode) : TreeNode → TreeNode × Bool
  | .mk k d f fd t p dr cs =>
    if k == key then (.mk k d f fd t p dr (cs ++ [nc]), true)
    else
      let r := attach_list key nc cs
      (.mk k d f fd t p dr r.1, r.2)

def attach_list (key : String) (nc : TreeNode) :
    List TreeNode → List TreeNode × Bool
  | [] => ([], false)
  | n :: rest =>
    let r := attach_node key nc n
    if r.2 then (r.1 :: rest, true)
    else
      let rr := attach_list key nc rest
      (n :: rr.1, rr.2)

end

/-- Second step of `apply_specified_mappings`: re-attach each mapping
child under its designated parent when both are found and the parent does
not already hold a child with that key. -/
def reattach_pass (entities : List TreeNode) (ms : List Mapping)
    (translations : List (String × String)) : List TreeNode :=
  ms.foldl (fun es m =>
    let child_key := replaceSpace m.child
    let parent_key := replaceSpace m.parent
    match find_entity_by_key es parent_key, find_entity_by_key es child_key with
    | some pe, some ce =>
      if pe.children.any (fun c => c.key == child_key) then es
      else
        let child_translated := transGet translations child_key m.child
        let child_copy := ce.withDescriptionPath child_translated
          (normalize_string child_translated)
        (attach_list parent_key child_copy es).1
    | _, _ => es) entities

/-- `child_to_parent_map`: a dict built child-by-child, later mappings
for the same child overwriting earlier ones. -/
def dict_set (m : List (String × String)) (k v : String) :
    List (String × String) :=
  if (m.lookup k).isNone then m ++ [(k, v)]
  else m.map (fun kv => if kv.1 == k then (kv.1, v) else kv)

def build_child_to_parent (ms : List Mapping) : List (String × String) :=
  ms.foldl (fun m mp => dict_set m mp.child mp.parent) []

/-- The `grandchildren_to_move` scan of `enforce_specified_mappings_recursive`
for one child: for each grandchild (by index) with a mapped proper parent
different from the current child, the first sibling whose fieldname is the
proper parent (by index into the sibling list). -/
def compute_moves (c2p : List (String × String)) (siblings : List TreeNode)
    (child : TreeNode) : List (Nat × TreeNode × Nat) :=
  child.children.enum.filterMap (fun ig =>
    match c2p.lookup ig.2.fieldname with
    | none => none
    | some proper =>
      if child.fieldname == proper then none
      else
        match siblings.findIdx? (fun pp => pp.fieldname == proper) with
        | none => none
        | some pidx => some (ig.1, ig.2, pidx))

/-- Apply the moves in reverse index order: append the grandchild to its
proper parent unless a child with the same key is already there, then pop
it from the current child's children. -/
def apply_moves (siblings : List TreeNode) (childCs : List TreeNode)
    (moves : List (Nat × TreeNode × Nat)) : List TreeNode × List TreeNode :=
  moves.reverse.foldl (fun st mv =>
    let (sibs, childCs) := st
    let (i, gc, pidx) := mv
    match sibs[pidx]? with
    | none => st
    | some pp =>
      let sibs :=
        if pp.children.any (fun ex => ex.key == gc.key) then sibs
        else sibs.set pidx (pp.withChildren (pp.children ++ [gc]))
      let childCs := if i < childCs.length then childCs.eraseIdx i else childCs
      (sibs, childCs)) (siblings, childCs)

mutual

/-- Embedding of `enforce_specified_mappings_recursive` on one entity.
`fuel` bounds the recursion (Python's recursion limit).  The
`child_fieldname_to_key` dict computed by the source is dead code and is
not reproduced. -/
def enforce_node (fuel : Nat) (c2p : List (String × String))
    (entity : TreeNode) : Except String TreeNode :=
  match fuel with
  | 0 => .error "RecursionError"
  | fuel + 1 =>
    if entity.children.isEmpty then pure entity
    else do
      let cs ← enforce_children fuel c2p entity.children 0
      pure (entity.withChildren cs)

/-- The `for child in entity["children"]` loop, iterating by index over
the evolving sibling list. -/
def enforce_children (fuel : Nat) (c2p : List (String × String))
    (cs : List TreeNode) (j : Nat) : Except String (List TreeNode) :=
  match fuel with
  | 0 => .error "RecursionError"
  | fuel + 1 =>
    if h : j < cs.length then do
      let child := cs[j]
      let moves := compute_moves c2p cs child
      let res := apply_moves cs child.children moves
      let child ← enforce_node fuel c2p (child.withChildren res.2)
      enforce_children fuel c2p (res.1.set j child) (j + 1)
    else pure cs

end

/-- Embedding of `apply_specified_mappings`: scrub, re-attach, recursive
enforcement per root, then prune every root whose key is a mapping
child. -/
def apply_specified_mappings (fuel : Nat) (entities : List TreeNode)
    (ms : List Mapping) (translations : List (String × String)) :
    Except String (List TreeNode) := do
  let c2p := build_child_to_parent ms
  let entities := removal_pass entities ms
  let entities := reattach_pass entities ms translations
  let entities ← entities.mapM (enforce_node fuel c2p)
  let toRemove := ms.map (fun m => replaceSpace m.child)
  pure (entities.filter (fun e => !(toRemove.contains e.key)))

/-- Embedding of `build_tree`: the two root-construction loops over the
catalogue, the corrective mapping pass, and the path pass. -/
def build_tree (fuel : Nat) (all_doctypes : Catalogue)
    (specified_mapping : List Mapping)
    (translations : List (String × String)) :
    Except String (List TreeNode) := do
  let mp := build_mandatory_parents specified_mapping
  let mc := build_mandatory_children specified_mapping
  let (entities, processed) ←
    all_doctypes.foldlM (fun (st : List TreeNode × List String) kv => do
      let (es, processed) := st
      let name := kv.1
      if (mp.lookup name).isNone && !(processed.contains name) then do
        let (e, processed) ←
          create_doctype_entity fuel name all_doctypes mp mc processed translations
        pure (es ++ [e], processed)
      else pure (es, processed)) ([], [])
  let (entities, _) ←
    all_doctypes.foldlM (fun (st : List TreeNode × List String) kv => do
      let (es, processed) := st
      let name := kv.1
      if !(processed.contains name) then do
        let (e, processed) ←
          create_doctype_entity fuel name all_doctypes mp mc processed translations
        pure (es ++ [e], processed)
      else pure (es, processed)) (entities, processed)
  let entities ← apply_specified_mappings fuel entities specified_mapping translations
  pure (update_all_paths entities)

mutual

/-- Number of entity (`type == "doctype"`) nodes carrying the given
doctype name in a subtree. -/
def count_doctype_nodes (name : String) : TreeNode → Nat
  | .mk _ _ f _ t _ _ cs =>
    (if t == "doctype" && f == name then 1 else 0) + count_doctype_list name cs

def count_doctype_list (name : String) : List TreeNode → Nat
  | [] => 0
  | c :: rest => count_doctype_nodes name c + count_doctype_list name rest

end

def count_doctype_forest (name : String) (forest : List TreeNode) : Nat :=
  count_doctype_list name forest

/-- C2 (failing input): with catalogue `{"P": [], "R": [Table field
referencing "P"]}` (in that order) and an empty — hence trivially
acyclic — mapping set, `build_tree` places `P` both as a root and as an
inferred child of `R`: the entity type `P` appears twice in the built
forest, not exactly once.  The option-relationship branch of
`create_doctype_entity` never consults the `processed_doctypes` set the
builder keeps "to avoid duplication". -/
theorem c2_build_tree_duplicates_entity :
    (build_tree 10
        [("P", []),
         ("R", [{ fieldname := "p", label := "P ref", fieldtype := "Table",
                  options := some "P" }])]
        [] []).map (count_doctype_forest "P") = Except.ok 2 := by
  rfl

theorem except_bind_ok {ε α β : Type} {e : Except ε α} {f : α → Except ε β}
    {b : β} (h : e >>= f = .ok b) : ∃ a, e = .ok a ∧ f a = .ok b := by
  cases e with
  | error err => simp [Bind.bind, Except.bind] at h
  | ok a => exact ⟨a, rfl, by simpa [Bind.bind, Except.bind] using h⟩

theorem except_pure_bind {ε α β : Type} (a : α) (f : α → Except ε β) :
    (pure a : Except ε α) >>= f = f a := rfl

theorem except_error_bind {ε α β : Type} (e : ε) (f : α → Except ε β) :
    (Except.error e : Except ε α) >>= f = Except.error e := rfl

/-- Both child-attaching loops of the builder only ever append to the
accumulated children list: a successful fold leaves the initial list as a
prefix. -/
theorem foldlM_fst_extends {β : Type}
    (step : (List TreeNode × List String) → β →
      Except String (List TreeNode × List String))
    (hstep : ∀ s b s', step s b = .ok s' → ∃ suf, s'.1 = s.1 ++ suf) :
    ∀ (l : List β) (s s' : List TreeNode × List String),
      l.foldlM step s = .ok s' → ∃ suf, s'.1 = s.1 ++ suf := by
  intro l
  induction l with
  | nil =>
    intro s s' h
    rw [List.foldlM_nil] at h
    cases h
    exact ⟨[], (List.append_nil _).symm⟩
  | cons b rest ih =>
    intro s s' h
    rw [List.foldlM_cons] at h
    obtain ⟨s1, hs1, hrest⟩ := except_bind_ok h
    obtain ⟨suf1, h1⟩ := hstep s b s1 hs1
    obtain ⟨suf2, h2⟩ := ih s1 s' hrest
    exact ⟨suf1 ++ suf2, by rw [h2, h1, List.append_assoc]⟩

/-- C10: `map_field_type` is total with generic default `"string"`: every
fieldtype outside the mapped dictionary — in particular `"Link"` — maps to
`"string"`, and a `"Link"`-typed catalogue field of a doctype built by
`create_doctype_entity` yields a scalar (`dragandrop`, childless) field
node of type `"string"` among that doctype's children rather than being
rejected or nested. -/
theorem c10_map_field_type_total_default_string :
    map_field_type "Link" = "string" ∧
    (∀ ft, type_mapping.lookup ft = none → map_field_type ft = "string") ∧
    (∀ fuel name cat mp mc processed translations fields node processed',
      cat.lookup name = some fields →
      create_doctype_entity fuel name cat mp mc processed translations
        = .ok (node, processed') →
      ∀ f ∈ fields, f.fieldtype = "Link" →
        mkFieldNode f ∈ node.children ∧ (mkFieldNode f).type = "string" ∧
        (mkFieldNode f).dragandrop = true ∧ (mkFieldNode f).children = []) := by
  refine ⟨rfl, ?_, ?_⟩
  · intro ft h
    rw [map_field_type, h]
    rfl
  · intro fuel name cat mp mc processed translations fields node processed'
      hcat hok f hf hft
    have hmem : mkFieldNode f ∈ regularFieldNodes fields := by
      rw [regularFieldNodes]
      refine List.mem_map_of_mem _ (List.mem_filter.mpr ⟨hf, ?_⟩)
      rw [isRegularField, hft]
      simp
    have htype : (mkFieldNode f).type = "string" := by
      rw [mkFieldNode, hft]
      rfl
    refine ⟨?_, htype, rfl, rfl⟩
    cases fuel with
    | zero => exact absurd hok (by rw [create_doctype_entity]; simp)
    | succ fuel =>
      rw [create_doctype_entity] at hok
      simp only [hcat] at hok
      rcases hmc : mc.lookup name with _ | childList <;> rw [hmc] at hok
      · -- no mandatory children: the first bind is `pure`
        obtain ⟨st1, hst1, hok⟩ := except_bind_ok hok
        obtain ⟨cs1, ps1⟩ := st1
        obtain ⟨st2, hst2, hok⟩ := except_bind_ok hok
        obtain ⟨cs2, ps2⟩ := st2
        simp only [pure, Except.pure, Except.ok.injEq, Prod.mk.injEq] at hok hst1
        have hnodechildren : node.children = cs2 := by
          rw [← hok.1]; rfl
        have h2 : ∃ suf, cs2 = cs1 ++ suf := by
          refine foldlM_fst_extends _ ?_ fields (cs1, ps1) (cs2, ps2) hst2
          intro s b s' h
          obtain ⟨bcs, bps⟩ := s
          dsimp only at h
          rcases hopt : b.options with _ | related
          · rw [hopt] at h
            cases h; exact ⟨[], (List.append_nil _).symm⟩
          · rw [hopt] at h
            dsimp only at h
            split at h
            · cases h; exact ⟨[], (List.append_nil _).symm⟩
            · split at h
              · cases h; exact ⟨[], (List.append_nil _).symm⟩
              · split at h
                · cases h; exact ⟨[], (List.append_nil _).symm⟩
                · split at h
                  · cases h; exact ⟨[], (List.append_nil _).symm⟩
                  · obtain ⟨stt, hstt, h⟩ := except_bind_ok h
                    simp only [pure, Except.pure, Except.ok.injEq] at h
                    exact ⟨[stt.1], by rw [← h]⟩
        obtain ⟨suf2, hsuf2⟩ := h2
        rw [hnodechildren, hsuf2, ← hst1.1]
        exact List.mem_append_left _ hmem
      · -- mandatory children loop only appends
        obtain ⟨st1, hst1, hok⟩ := except_bind_ok hok
        obtain ⟨cs1, ps1⟩ := st1
        obtain ⟨st2, hst2, hok⟩ := except_bind_ok hok
        obtain ⟨cs2, ps2⟩ := st2
        simp only [pure, Except.pure, Except.ok.injEq, Prod.mk.injEq] at hok
        have hnodechildren : node.children = cs2 := by
          rw [← hok.1]; rfl
        have h2 : ∃ suf, cs2 = cs1 ++ suf := by
          refine foldlM_fst_extends _ ?_ fields (cs1, ps1) (cs2, ps2) hst2
          intro s b s' h
          obtain ⟨bcs, bps⟩ := s
          dsimp only at h
          rcases hopt : b.options with _ | related
          · rw [hopt] at h
            cases h; exact ⟨[], (List.append_nil _).symm⟩
          · rw [hopt] at h
            dsimp only at h
            split at h
            · cases h; exact ⟨[], (List.append_nil _).symm⟩
            · split at h
              · cases h; exact ⟨[], (List.append_nil _).symm⟩
              · split at h
                · cases h; exact ⟨[], (List.append_nil _).symm⟩
                · split at h
                  · cases h; exact ⟨[], (List.append_nil _).symm⟩
                  · obtain ⟨stt, hstt, h⟩ := except_bind_ok h
                    simp only [pure, Except.pure, Except.ok.injEq] at h
                    exact ⟨[stt.1], by rw [← h]⟩
        have h1 : ∃ suf, cs1 = regularFieldNodes fields ++ suf := by
          refine foldlM_fst_extends _ ?_ childList
            (regularFieldNodes fields, processed ++ [name]) (cs1, ps1) hst1
          intro s b s' h
          obtain ⟨bcs, bps⟩ := s
          dsimp only at h
          split at h
          · cases h; exact ⟨[], (List.append_nil _).symm⟩
          · split at h
            · cases h; exact ⟨[], (List.append_nil _).symm⟩
            · obtain ⟨stt, hstt, h⟩ := except_bind_ok h
              simp only [pure, Except.pure, Except.ok.injEq] at h
              exact ⟨[stt.1], by rw [← h]⟩
        obtain ⟨suf1, hsuf1⟩ := h1
        obtain ⟨suf2, hsuf2⟩ := h2
        rw [hnodechildren, hsuf2, hsuf1]
        exact List.mem_append_left _ (List.mem_append_left _ hmem)

/-! ## Claim C1: placement of mandatory-mapping children -/

mutual

/-- Claim C1's placement property for one mapping, written from the
spec's words: a node with the child's key may sit only directly under a
node with the parent's key, at any depth. -/
def placement_ok_node (ck pk : String) : TreeNode → Bool
  | .mk k _ _ _ _ _ _ cs => placement_ok_children ck pk k cs

def placement_ok_children (ck pk parentKey : String) : List TreeNode → Bool
  | [] => true
  | c :: rest =>
    (!(c.key == ck) || (parentKey == pk)) && placement_ok_node ck pk c &&
    placement_ok_children ck pk parentKey rest

end

/-- Claim C1 over a forest: the mapping child is never a root, and every
placement of it is directly under a parent-keyed node. -/
def placement_ok_forest (ck pk : String) (forest : List TreeNode) : Bool :=
  forest.all (fun r => !(r.key == ck)) && forest.all (placement_ok_node ck pk)

mutual

/-- No strict descendant of the node carries the given key. -/
def descendants_key_free (k : String) : TreeNode → Bool
  | .mk _ _ _ _ _ _ _ cs => children_key_free k cs

def children_key_free (k : String) : List TreeNode → Bool
  | [] => true
  | c :: rest =>
    (!(c.key == k)) && descendants_key_free k c && children_key_free k rest

end

/-- C1 (counterexample): `apply_specified_mappings` skips the designated
parent's whole root subtree during the scrub, so with forest
`[P [X [C]]]` and the single mapping `{child C, parent P}` the child `C`
stays directly under `X` (and a second copy is appended under `P`): the
claimed "only under the designated parent, never under any other entity
node" fails on this input. -/
theorem c1_counterexample :
    (apply_specified_mappings 10
        [TreeNode.mk "P" "P" "P" "" "doctype" "p" false
           [TreeNode.mk "X" "X" "X" "" "doctype" "x" false
              [TreeNode.mk "C" "C" "C" "" "doctype" "c" false []]]]
        [⟨"C", "P"⟩] []).map (placement_ok_forest "C" "P")
      = Except.ok false := by
  rfl

theorem children_key_free_eq_all (k : String) (l : List TreeNode) :
    children_key_free k l
      = l.all (fun c => (!(c.key == k)) && descendants_key_free k c) := by
  induction l with
  | nil => rfl
  | cons c rest ih =>
    rw [children_key_free, List.all_cons, ih, Bool.and_assoc]

theorem scrub_list_eq (k : String) (l : List TreeNode) :
    scrub_list k l
      = (l.filter (fun c => c.key != k)).map (scrub_node k) := by
  induction l with
  | nil => rfl
  | cons c rest ih =>
    rw [scrub_list, List.filter_cons]
    by_cases h : c.key == k <;> simp [bne, h, ih]

theorem scrub_node_key (k : String) (n : TreeNode) :
    (scrub_node k n).key = n.key := by
  cases n; rfl

/-- The scrub establishes key-freeness: after `scrub_node k`, no strict
descendant carries key `k`. -/
theorem descendants_key_free_scrub (k : String) (n : TreeNode) :
    descendants_key_free k (scrub_node k n) = true := by
  induction n using TreeNode.inductionOn with
  | h ky d f fd t p dr cs ih =>
    rw [scrub_node, descendants_key_free, children_key_free_eq_all,
      scrub_list_eq, List.all_eq_true]
    intro x hx
    rw [List.mem_map] at hx
    obtain ⟨c, hc, rfl⟩ := hx
    rw [List.mem_filter] at hc
    simp only [Bool.and_eq_true]
    refine ⟨?_, ih c hc.1⟩
    rw [scrub_node_key]
    simpa [bne] using hc.2

/-- Scrubbing any key preserves key-freeness for any other key: the
scrub only drops nodes. -/
theorem descendants_key_free_scrub_preserve (k k' : String) (n : TreeNode)
    (h : descendants_key_free k n = true) :
    descendants_key_free k (scrub_node k' n) = true := by
  induction n using TreeNode.inductionOn with
  | h ky d f fd t p dr cs ih =>
    rw [scrub_node, descendants_key_free, children_key_free_eq_all,
      scrub_list_eq, List.all_eq_true]
    rw [descendants_key_free, children_key_free_eq_all, List.all_eq_true] at h
    intro x hx
    rw [List.mem_map] at hx
    obtain ⟨c, hc, rfl⟩ := hx
    rw [List.mem_filter] at hc
    have hcfree := h c hc.1
    simp only [Bool.and_eq_true] at hcfree ⊢
    refine ⟨?_, ih c hc.1 hcfree.2⟩
    rw [scrub_node_key]
    exact hcfree.1

/-- One step of the removal fold. -/
def removal_step (es : List TreeNode) (m : Mapping) : List TreeNode :=
  es.map (fun e =>
    if e.key == replaceSpace m.parent then e
    else scrub_node (replaceSpace m.child) e)

theorem removal_pass_eq_foldl (entities : List TreeNode) (ms : List Mapping) :
    removal_pass entities ms = ms.foldl removal_step entities := rfl

/-- The invariant "every root not keyed as `pk` is `k`-free below" is
preserved by any removal step. -/
theorem removal_step_preserve (k pk : String) (es : List TreeNode)
    (m : Mapping)
    (h : ∀ r ∈ es, r.key ≠ pk → descendants_key_free k r = true) :
    ∀ r ∈ removal_step es m, r.key ≠ pk → descendants_key_free k r = true := by
  intro r hr hrk
  rw [removal_step, List.mem_map] at hr
  obtain ⟨e, he, rfl⟩ := hr
  by_cases hk : e.key == replaceSpace m.parent
  · simp only [hk, if_true] at hrk ⊢
    exact h e he hrk
  · simp only [hk, Bool.false_eq_true, if_false] at hrk ⊢
    rw [scrub_node_key] at hrk
    exact descendants_key_free_scrub_preserve _ _ _ (h e he hrk)

theorem removal_fold_preserve (k pk : String) :
    ∀ (ms : List Mapping) (es : List TreeNode),
      (∀ r ∈ es, r.key ≠ pk → descendants_key_free k r = true) →
      ∀ r ∈ ms.foldl removal_step es, r.key ≠ pk →
        descendants_key_free k r = true := by
  intro ms
  induction ms with
  | nil => intro es h; exact h
  | cons m rest ih =>
    intro es h
    rw [List.foldl_cons]
    exact ih _ (removal_step_preserve k pk es m h)

/-- One removal step establishes the invariant for its own mapping. -/
theorem removal_step_establish (m : Mapping) (es : List TreeNode) :
    ∀ r ∈ removal_step es m, r.key ≠ replaceSpace m.parent →
      descendants_key_free (replaceSpace m.child) r = true := by
  intro r hr hrk
  rw [removal_step, List.mem_map] at hr
  obtain ⟨e, he, rfl⟩ := hr
  by_cases hk : e.key == replaceSpace m.parent
  · simp only [hk, if_true] at hrk
    exact absurd (by simpa using hk) hrk
  · simp only [hk, Bool.false_eq_true, if_false]
    exact descendants_key_free_scrub _ _

/-- After the removal pass, for every mapping, every root other than the
designated parent is free of the child's key at all depths. -/
theorem removal_pass_scrubs (entities : List TreeNode) (ms : List Mapping) :
    ∀ m ∈ ms, ∀ r ∈ removal_pass entities ms,
      r.key ≠ replaceSpace m.parent →
      descendants_key_free (replaceSpace m.child) r = true := by
  rw [removal_pass_eq_foldl]
  induction ms generalizing entities with
  | nil => intro m hm; exact absurd hm (List.not_mem_nil m)
  | cons m0 rest ih =>
    intro m hm
    rw [List.foldl_cons]
    rcases List.mem_cons.mp hm with rfl | hm'
    · exact removal_fold_preserve _ _ rest _ (removal_step_establish m entities)
    · exact ih _ m hm'

/-- C1 (amended): after `apply_specified_mappings`, no forest root is
keyed as any mapping child (the final prune removes them all), and the
removal pass scrubs each mapping child's key from every root subtree
other than the designated parent's own root; the counterexample shows
placements under non-designated parents inside the parent-keyed root may
survive, so the original "only under the designated parent at any depth"
does not hold of the whole pass. -/
theorem c1_apply_specified_mappings_roots_and_scrub (fuel : Nat)
    (entities : List TreeNode) (ms : List Mapping)
    (translations : List (String × String)) (result : List TreeNode)
    (hok : apply_specified_mappings fuel entities ms translations
      = .ok result) :
    (∀ m ∈ ms, ∀ r ∈ result, r.key ≠ replaceSpace m.child) ∧
    (∀ m ∈ ms, ∀ r ∈ removal_pass entities ms,
      r.key ≠ replaceSpace m.parent →
      descendants_key_free (replaceSpace m.child) r = true) := by
  refine ⟨?_, removal_pass_scrubs entities ms⟩
  rw [apply_specified_mappings] at hok
  obtain ⟨es, hes, hok⟩ := except_bind_ok hok
  simp only [pure, Except.pure, Except.ok.injEq] at hok
  intro m hm r hr heq
  rw [← hok, List.mem_filter] at hr
  have hcontains : (ms.map (fun m => replaceSpace m.child)).contains r.key = true := by
    have hmem : r.key ∈ ms.map (fun m => replaceSpace m.child) := by
      rw [heq]
      exact List.mem_map_of_mem _ hm
    exact List.elem_iff.mpr hmem
  rw [hcontains] at hr
  exact absurd hr.2 (by simp)

theorem c10_map_field_type_witness :
    map_field_type "Frobnicate" = "string" ∧
    mkFieldNode { fieldname := "l", label := "L", fieldtype := "Link" } ∈
      (TreeNode.mk "A" "A" "A" "" "doctype" "a" false
        [mkFieldNode { fieldname := "l", label := "L", fieldtype := "Link" }]).children :=
  ⟨c10_map_field_type_total_default_string.2.1 "Frobnicate" rfl,
   (c10_map_field_type_total_default_string.2.2 2 "A"
      [("A", [{ fieldname := "l", label := "L", fieldtype := "Link" }])] [] [] [] []
      [{ fieldname := "l", label := "L", fieldtype := "Link" }]
      (TreeNode.mk "A" "A" "A" "" "doctype" "a" false
        [mkFieldNode { fieldname := "l", label := "L", fieldtype := "Link" }])
      ["A"] rfl rfl _ (List.mem_singleton.mpr rfl) rfl).1⟩

theorem c1_apply_specified_mappings_witness :
    TreeNode.key (.mk "P" "P" "P" "" "doctype" "p" false []) ≠ replaceSpace "C" ∧
    descendants_key_free (replaceSpace "C")
      (.mk "Q" "Q" "Q" "" "doctype" "q" false []) = true := by
  have h := c1_apply_specified_mappings_roots_and_scrub 10
    [.mk "P" "P" "P" "" "doctype" "p" false [],
     .mk "Q" "Q" "Q" "" "doctype" "q" false
       [.mk "C" "C" "C" "" "doctype" "c" false []]]
    [⟨"C", "P"⟩] []
    [.mk "P" "P" "P" "" "doctype" "p" false [],
     .mk "Q" "Q" "Q" "" "doctype" "q" false []]
    rfl
  constructor
  · exact h.1 ⟨"C", "P"⟩ (List.mem_singleton.mpr rfl) _ (List.mem_cons_self _ _)
  · apply h.2 ⟨"C", "P"⟩ (List.mem_singleton.mpr rfl)
      (.mk "Q" "Q" "Q" "" "doctype" "q" false [])
    · show _ ∈ removal_pass _ _
      have hrp : removal_pass
          [TreeNode.mk "P" "P" "P" "" "doctype" "p" false [],
           .mk "Q" "Q" "Q" "" "doctype" "q" false
             [.mk "C" "C" "C" "" "doctype" "c" false []]]
          [⟨"C", "P"⟩]
          = [.mk "P" "P" "P" "" "doctype" "p" false [],
             .mk "Q" "Q" "Q" "" "doctype" "q" false []] := rfl
      rw [hrp]
      exact List.mem_cons_of_mem _ (List.mem_singleton.mpr rfl)
    · intro hQ
      exact absurd hQ (by decide)

/-! ## Engine data compiler: `engine_data.py` -/

/-- Dynamic JSON-ish values stored in records: scalars, `null`, or a
nested array of records (the denormalized child arrays read through
`fieldname_data`). -/
inductive JVal where
  | null
  | s (v : String)
  | i (v : Int)
  | b (v : Bool)
  | arr (rows : List (List (String × JVal)))

/-- One raw record: a dict from field name to value. -/
abbrev Record := List (String × JVal)

/-- `all_doctype_data`: a list of dicts, each mapping doctype names to
record arrays. -/
abbrev Store := List (List (String × List Record))

/-- Python truthiness of a record value (`if not doctype_data`). -/
def jvalTruthy : JVal → Bool
  | .null => false
  | .s v => v != ""
  | .i v => v != 0
  | .b v => v
  | .arr rows => !rows.isEmpty

/-- Embedding of `get_doctype_data`: scan the store dicts in order, the
last dict containing the name wins; if none contains it the local is
never assigned and Python raises `UnboundLocalError`, embedded as
`none`. -/
def get_doctype_data (store : Store) (name : String) : Option (List Record) :=
  store.foldl (fun acc d =>
    match d.lookup name with
    | some rs => some rs
    | none => acc) none

/-- One entry of `formulas[0]["tableformulas"]`. -/
structure Formula where
  groupfielddoctype : String
  groupfieldfieldname : String
  formula : String

/-- The per-head formula dicts `{path, value, update:{doctype, fieldname}}`.
`path` is the Formula Locator result and may be Python `None`. -/
structure EngineFormula where
  path : Option String
  value : String
  update_doctype : String
  update_fieldname : String

/-- One `{path, type, value}` entry of an item's `fields`. -/
structure EngineField where
  path : String
  type : String
  value : JVal

mutual

/-- `{path, formulas, data}`: one head per visited entity node. -/
inductive EngineHead where
  | mk (path : String) (formulas : List EngineFormula) (data : List EngineItem)

/-- `{id, creation, fields, childs}`: one item per record, or the
placeholder. -/
inductive EngineItem where
  | mk (id creation : JVal) (fields : List EngineField) (childs : List EngineHead)

end

def EngineHead.path : EngineHead → String
  | .mk p _ _ => p

def EngineHead.formulas : EngineHead → List EngineFormula
  | .mk _ f _ => f

def EngineHead.data : EngineHead → List EngineItem
  | .mk _ _ d => d

def EngineItem.id : EngineItem → JVal
  | .mk i _ _ _ => i

def EngineItem.creation : EngineItem → JVal
  | .mk _ c _ _ => c

def EngineItem.fields : EngineItem → List EngineField
  | .mk _ _ f _ => f

def EngineItem.childs : EngineItem → List EngineHead
  | .mk _ _ _ c => c

/-! ### Formula Locator: `search_fieldname_path` -/

/-- Python truthiness of the `path` variable: `None` and `""` are falsy. -/
def truthyOpt : Option String → Bool
  | none => false
  | some s => s != ""

mutual

/-- Embedding of the inner `traverse` of `search_fieldname_path`: return
a truthy accumulated path at once; at an entity node matching the
doctype, return the first direct child with the wanted fieldname (its
path, even empty) or `None`; otherwise thread the search through the
children and return the result only if truthy. -/
def sfp_traverse (dt fn : String) : TreeNode → Option String → Option String
  | .mk _ _ f _ t _ _ cs, path =>
    if truthyOpt path then path
    else if t == "doctype" && f == dt then
      match cs.find? (fun c => c.fieldname == fn) with
      | some c => some c.path
      | none => none
    else
      let p := sfp_traverse_list dt fn cs path
      if truthyOpt p then p else none

def sfp_traverse_list (dt fn : String) : List TreeNode → Option String → Option String
  | [], path => path
  | c :: rest, path => sfp_traverse_list dt fn rest (sfp_traverse dt fn c path)

end

/-- The root loop of `search_fieldname_path`: thread the path through the
roots, returning as soon as it is truthy; fall off the end with `None`. -/
def sfp_roots (dt fn : String) : List TreeNode → Option String → Option String
  | [], _ => none
  | r :: rest, path =>
    let p := sfp_traverse dt fn r path
    if truthyOpt p then p else sfp_roots dt fn rest p

/-- Embedding of `search_fieldname_path`. -/
def search_fieldname_path (data : List TreeNode) (dt fn : String) : Option String :=
  sfp_roots dt fn data none

/-! ### The data walk -/

/-- The walk's mutable state: the touched-path list (insertion-ordered,
deduplicated) and the per-path read cursors. -/
structure WalkSt where
  paths : List String
  index : List (String × Nat)

/-- Embedding of `add_path_to_list`. -/
def add_path_to_list (st : WalkSt) (p : String) : WalkSt :=
  if st.paths.contains p then st else { st with paths := st.paths ++ [p] }

def idx_get (m : List (String × Nat)) (k : String) : Nat :=
  (m.lookup k).getD 0

def idx_set (m : List (String × Nat)) (k : String) (v : Nat) :
    List (String × Nat) :=
  if (m.lookup k).isNone then m ++ [(k, v)]
  else m.map (fun kv => if kv.1 == k then (kv.1, v) else kv)

def idx_setdefault (m : List (String × Nat)) (k : String) (v : Nat) :
    List (String × Nat) :=
  if (m.lookup k).isNone then m ++ [(k, v)] else m

/-- `head_data_item["data"][-1][childs_name].append(h)`: attach a child
head to the last item; callers guard the empty case (`IndexError`). -/
def attach_child_last : List EngineItem → EngineHead → List EngineItem
  | [], _ => []
  | [.mk idv crv flds chs], h => [.mk idv crv flds (chs ++ [h])]
  | it :: it2 :: rest, h => it :: attach_child_last (it2 :: rest) h

mutual

/-- Embedding of `traverse_doctype`.  `data?` is the `doctype_data`
argument; `none` is Python `None`; a falsy value (including an empty
array) causes a re-fetch via `get_doctype_data`, whose unbound local on a
missing store entry is `"UnboundLocalError"`.  A truthy non-array value
fails the subsequent record slicing (`"TypeError"`). -/
def traverse_doctype (fuel : Nat) (tree : List TreeNode) (fs : List Formula)
    (store : Store) (node : TreeNode) (data? : Option JVal) (reset : Bool)
    (st : WalkSt) : Except String (EngineHead × WalkSt) :=
  match fuel with
  | 0 => .error "RecursionError"
  | fuel + 1 => do
    let st := add_path_to_list st node.path
    let data ← match data? with
      | some v =>
        if jvalTruthy v then
          match v with
          | .arr rows => pure rows
          | _ => .error "TypeError"
        else
          match get_doctype_data store node.fieldname with
          | some rs => pure rs
          | none => .error "UnboundLocalError"
      | none =>
        match get_doctype_data store node.fieldname with
        | some rs => pure rs
        | none => .error "UnboundLocalError"
    let engine_formulas :=
      (fs.filter (fun f => f.groupfielddoctype == node.fieldname)).map
        (fun f =>
          { path := search_fieldname_path tree f.groupfielddoctype
              f.groupfieldfieldname,
            value := f.formula,
            update_doctype := f.groupfielddoctype,
            update_fieldname := f.groupfieldfieldname : EngineFormula })
    let (items, st) ←
      traverse_doctype_data fuel tree fs store node.children data node.path
        reset st
    pure (EngineHead.mk node.path engine_formulas items, st)

/-- Embedding of `traverse_doctype_data`: cursor bookkeeping, then either
the record loop over the remaining slice or the placeholder branch. -/
def traverse_doctype_data (fuel : Nat) (tree : List TreeNode)
    (fs : List Formula) (store : Store) (nodes : List TreeNode)
    (data : List Record) (path : String) (reset : Bool) (st : WalkSt) :
    Except String (List EngineItem × WalkSt) :=
  match fuel with
  | 0 => .error "RecursionError"
  | fuel + 1 => do
    let st := { st with index := idx_setdefault st.index path 0 }
    let st := if reset then { st with index := idx_set st.index path 0 } else st
    let index := idx_get st.index path
    let slice := data.drop index
    if slice.isEmpty then
      placeholder_node_loop fuel tree fs store path nodes []
        (some (.mk .null .null [] [])) st
    else
      record_loop fuel tree fs store nodes path slice [] st

/-- The `for d in doctype_data[index:]` loop. -/
def record_loop (fuel : Nat) (tree : List TreeNode) (fs : List Formula)
    (store : Store) (nodes : List TreeNode) (path : String)
    (ds : List Record) (acc : List EngineItem) (st : WalkSt) :
    Except String (List EngineItem × WalkSt) :=
  match ds with
  | [] => pure (acc, st)
  | d :: rest =>
    match fuel with
    | 0 => .error "RecursionError"
    | fuel + 1 => do
      let st := { st with index := idx_set st.index path (idx_get st.index path + 1) }
      let idv ← match d.lookup "name" with
        | some v => pure v
        | none => .error "KeyError"
      let crv ← match d.lookup "creation" with
        | some v => pure v
        | none => .error "KeyError"
      let (acc, st) ←
        node_loop fuel tree fs store d path nodes acc
          (some (.mk idv crv [] [])) st
      record_loop fuel tree fs store nodes path rest acc st

/-- The `for n in nodes` loop of the non-empty branch.  `item` is the
open `engine_data_item` dict, `none` after it was reset to `{}`; a field
node hitting the reset dict raises `KeyError`, and attaching a child head
to an empty `data` list raises `IndexError`. -/
def node_loop (fuel : Nat) (tree : List TreeNode) (fs : List Formula)
    (store : Store) (d : Record) (path : String) (ns : List TreeNode)
    (acc : List EngineItem) (item : Option EngineItem) (st : WalkSt) :
    Except String (List EngineItem × WalkSt) :=
  match ns with
  | [] =>
    match item with
    | some it => pure (acc ++ [it], st)
    | none => pure (acc, st)
  | n :: rest =>
    match fuel with
    | 0 => .error "RecursionError"
    | fuel + 1 => do
      let st := add_path_to_list st n.path
      if n.type == "doctype" then do
        let data? ←
          if n.fieldname_data != "" then
            match d.lookup n.fieldname_data with
            | some v => pure (some v)
            | none => .error "KeyError"
          else
            match get_doctype_data store n.fieldname with
            | some rs => pure (some (JVal.arr rs))
            | none => .error "UnboundLocalError"
        let acc := match item with
          | some it => acc ++ [it]
          | none => acc
        if acc.isEmpty then .error "IndexError"
        else do
          let (childHead, st) ← traverse_doctype fuel tree fs store n data? true st
          node_loop fuel tree fs store d path rest
            (attach_child_last acc childHead) none st
      else
        match item with
        | none => .error "KeyError"
        | some (.mk idv crv flds chs) =>
          let value := (d.lookup n.fieldname).getD JVal.null
          node_loop fuel tree fs store d path rest acc
            (some (.mk idv crv
              (flds ++ [{ path := n.path, type := n.type, value := value }]) chs)) st

/-- The `for n in nodes` loop of the empty-slice branch: one placeholder
item with null id/creation, null field values, and every entity child
entered with an (empty) slice. -/
def placeholder_node_loop (fuel : Nat) (tree : List TreeNode)
    (fs : List Formula) (store : Store) (path : String) (ns : List TreeNode)
    (acc : List EngineItem) (item : Option EngineItem) (st : WalkSt) :
    Except String (List EngineItem × WalkSt) :=
  match ns with
  | [] =>
    match item with
    | some it => pure (acc ++ [it], st)
    | none => pure (acc, st)
  | n :: rest =>
    match fuel with
    | 0 => .error "RecursionError"
    | fuel + 1 => do
      let st := add_path_to_list st n.path
      if n.type == "doctype" then do
        let acc := match item with
          | some it => acc ++ [it]
          | none => acc
        if acc.isEmpty then .error "IndexError"
        else do
          let (childHead, st) ←
            traverse_doctype fuel tree fs store n (some (.arr [])) true st
          placeholder_node_loop fuel tree fs store path rest
            (attach_child_last acc childHead) none st
      else
        match item with
        | none => .error "KeyError"
        | some (.mk idv crv flds chs) =>
          placeholder_node_loop fuel tree fs store path rest acc
            (some (.mk idv crv
              (flds ++ [{ path := n.path, type := n.type, value := .null }]) chs)) st

end

/-- The root loop of `data_to_engine`: each root head is appended to the
result. -/
def roots_loop (fuel : Nat) (tree : List TreeNode) (fs : List Formula)
    (store : Store) (rs : List TreeNode) (acc : List EngineHead)
    (st : WalkSt) : Except String (List EngineHead × WalkSt) :=
  match rs with
  | [] => pure (acc, st)
  | r :: rest => do
    let (h, st) ← traverse_doctype fuel tree fs store r none false st
    roots_loop fuel tree fs store rest (acc ++ [h]) st

/-! ### Reference codes and substitution -/

/-- `f"{index:05d}"`: decimal digits zero-padded to width 5. -/
def pad5 (i : Nat) : String :=
  if i < 100000 then
    String.mk [Nat.digitChar (i / 10000 % 10), Nat.digitChar (i / 1000 % 10),
               Nat.digitChar (i / 100 % 10), Nat.digitChar (i / 10 % 10),
               Nat.digitChar (i % 10)]
  else toString i

/-- `f"e{index:05d}v"`. -/
def code_of_index (i : Nat) : String := "e" ++ pad5 i ++ "v"

/-- The `referencia` dict in insertion order: the i-th first-touched path
gets code `e{i:05d}v`, starting at index 0. -/
def build_references (paths : List String) : List (String × String) :=
  paths.enum.map (fun ip => (code_of_index ip.1, ip.2))

/-- The structural `path` replacement: scan the (sorted) reference pairs
in order and swap the value for the code on exact match; later pairs see
the updated value. -/
def replace_path_field (refs : List (String × String)) (p : String) : String :=
  refs.foldl (fun v cp => if v == cp.2 then cp.1 else v) p

/-- `p == path ++ rest`? Return the rest. -/
def chopLeading : List Char → List Char → Option (List Char)
  | [], s => some s
  | _, [] => none
  | p :: ps, c :: cs => if p = c then chopLeading ps cs else none

/-- One attempted match of `(^|\W)(path)(\W|$)` at the current position
(`bof` = start of string): returns the replacement text (delimiters
preserved around the code) and the remainder. -/
def match_at (path code : List Char) (s : List Char) (bof : Bool) :
    Option (List Char × List Char) :=
  (if bof then
    match chopLeading path s with
    | some rest =>
      match rest with
      | [] => some (code, [])
      | c :: rest' => if !isWordAscii c then some (code ++ [c], rest') else none
    | none => none
   else none) <|>
  (match s with
   | [] => none
   | c0 :: s' =>
     if isWordAscii c0 then none
     else
       match chopLeading path s' with
       | some rest =>
         match rest with
         | [] => some (c0 :: code, [])
         | c :: rest' =>
           if !isWordAscii c then some (c0 :: (code ++ [c]), rest') else none
       | none => none)

/-- The `re.sub` scan: find the leftmost match, emit the replacement,
continue after it; characters without a match are copied.  `fuel` at
least `s.length + 1` makes this exact. -/
def regex_sub_go (path code : List Char) : Nat → List Char → Bool → List Char
  | 0, _, _ => []
  | fuel + 1, s, bof =>
    match match_at path code s bof with
    | some (repl, rest) => repl ++ regex_sub_go path code fuel rest false
    | none =>
      match s with
      | [] => []
      | c :: rest => c :: regex_sub_go path code fuel rest false

/-- `re.sub(r'(^|\W)(path)(\W|$)', keep-delimiters, text)`. -/
def regex_sub (path code text : String) : String :=
  String.mk (regex_sub_go path.data code.data (text.data.length + 1) text.data true)

/-- Formula-value substitution: each (code, path) pair of the sorted
reference table rewrites whole-token occurrences of the path. -/
def replace_value (refs : List (String × String)) (v : String) : String :=
  refs.foldl (fun acc cp => regex_sub cp.2 cp.1 acc) v

/-- Substitution on one formula dict: the value is rewritten token-wise,
the `path` key (which may be `None`) by exact match. -/
def replace_formula (refs : List (String × String)) (fo : EngineFormula) :
    EngineFormula :=
  { fo with
    path := match fo.path with
      | none => none
      | some s => some (replace_path_field refs s),
    value := replace_value refs fo.value }

/-- Substitution on one `{path, type, value}` field dict: it has no
`update` key, so only the exact `path` replacement applies. -/
def replace_field (refs : List (String × String)) (fld : EngineField) :
    EngineField :=
  { fld with path := replace_path_field refs fld.path }

mutual

/-- Embedding of `replace_recursive` on a head. -/
def replace_head (refs : List (String × String)) : EngineHead → EngineHead
  | .mk p fos its =>
    .mk (replace_path_field refs p) (fos.map (replace_formula refs))
      (replace_items refs its)

def replace_items (refs : List (String × String)) :
    List EngineItem → List EngineItem
  | [] => []
  | it :: rest => replace_item refs it :: replace_items refs rest

/-- Embedding of `replace_recursive` on an item: no `path` key, so only
the recursion into `fields` and `childs`. -/
def replace_item (refs : List (String × String)) : EngineItem → EngineItem
  | .mk idv crv flds chs =>
    .mk idv crv (flds.map (replace_field refs)) (replace_heads refs chs)

def replace_heads (refs : List (String × String)) :
    List EngineHead → List EngineHead
  | [] => []
  | h :: rest => replace_head refs h :: replace_heads refs rest

end

/-- The final `{referencia, dados}` object. -/
structure EngineData where
  referencia : List (String × String)
  dados : List EngineHead

/-- Stable insertion (descending by path length): an element goes before
the first entry whose path is not longer, so equal lengths keep their
original relative order — the behavior of Python's stable
`sorted(..., key=len, reverse=True)`. -/
def insert_desc_len (x : String × String) :
    List (String × String) → List (String × String)
  | [] => [x]
  | y :: ys =>
    if y.2.length ≤ x.2.length then x :: y :: ys
    else y :: insert_desc_len x ys

def sort_desc_len (l : List (String × String)) : List (String × String) :=
  l.foldr insert_desc_len []

/-- Embedding of `data_to_engine`: walk every root, assign codes in
first-touch order, sort the substitution table by descending path length
(stable), and rewrite the result. -/
def data_to_engine (fuel : Nat) (doctype_tree : List TreeNode)
    (fs : List Formula) (store : Store) : Except String EngineData := do
  let (result, st) ← roots_loop fuel doctype_tree fs store doctype_tree [] ⟨[], []⟩
  let references := build_references st.paths
  let sorted_refs := sort_desc_len references
  pure { referencia := references, dados := replace_heads sorted_refs result }

/-! ## Claim C7: missing RecordStore entry -/

/-- C7 (code has the bug): a RecordStore with no entry for an entity
type does not produce an empty slice — `get_doctype_data`'s local is
never assigned (embedded as `none`) and `traverse_doctype` fails with
`UnboundLocalError` instead of emitting the placeholder item. -/
theorem c7_missing_store_entry_raises :
    (∀ (store : Store) (name : String),
      (∀ d ∈ store, d.lookup name = none) →
      get_doctype_data store name = none) ∧
    (∀ (fuel : Nat) (tree : List TreeNode) (fs : List Formula)
       (node : TreeNode) (st : WalkSt),
      traverse_doctype (fuel + 1) tree fs [] node none false st
        = .error "UnboundLocalError") := by
  constructor
  · intro store name h
    rw [get_doctype_data]
    suffices key : ∀ acc, acc = none →
        store.foldl (fun acc d =>
          match d.lookup name with
          | some rs => some rs
          | none => acc) acc = none by
      exact key none rfl
    induction store with
    | nil => intro acc ha; simpa using ha
    | cons d rest ih =>
      intro acc ha
      rw [List.foldl_cons]
      refine ih (fun d' hd' => h d' (List.mem_cons_of_mem _ hd')) _ ?_
      rw [h d (List.mem_cons_self _ _), ha]
  · intro fuel tree fs node st
    rw [traverse_doctype]
    have hget : get_doctype_data [] node.fieldname = none := rfl
    simp [hget, Bind.bind, Except.bind]

theorem c7_missing_store_entry_witness :
    get_doctype_data [] "Contract" = none ∧
    traverse_doctype 1 [] [] [] (.mk "A" "A" "Contract" "" "doctype" "a" false [])
      none false ⟨[], []⟩ = .error "UnboundLocalError" :=
  ⟨c7_missing_store_entry_raises.1 [] "Contract" (by simp),
   c7_missing_store_entry_raises.2 0 [] []
     (.mk "A" "A" "Contract" "" "doctype" "a" false []) ⟨[], []⟩⟩

/-! ## Claim C9: reference code assignment -/

/-- C9 (counterexample): the first assigned code is `e00000v`, not
`e00001v` — `enumerate` starts at 0. -/
theorem c9_counterexample :
    (data_to_engine 10 [.mk "A" "A" "A" "" "doctype" "a" false []] []
        [[("A", [])]]).map (fun res => res.referencia)
      = .ok [("e00000v", "a")] ∧
    (("e00000v", "a") : String × String) ≠ ("e00001v", "a") :=
  ⟨by rfl, by decide⟩

/-! ## Claim C5: the Formula Locator -/

mutual

/-- The claim's description of the Formula Locator, written from the
spec's words: depth-first document order; at an entity node whose
fieldname is the entity type, the first direct child with the wanted
fieldname contributes its path; otherwise the search continues into the
children. -/
def locator_matches (dt fn : String) : TreeNode → List String
  | .mk _ _ f _ t _ _ cs =>
    if t == "doctype" && f == dt then
      match cs.find? (fun c => c.fieldname == fn) with
      | some c => [c.path]
      | none => []
    else locator_matches_list dt fn cs

def locator_matches_list (dt fn : String) : List TreeNode → List String
  | [] => []
  | c :: rest => locator_matches dt fn c ++ locator_matches_list dt fn rest

end

/-- "Returns the first matching path in document order, absence when no
match exists" — the claim-side contract. -/
def locator_first_match (forest : List TreeNode) (dt fn : String) :
    Option String :=
  (locator_matches_list dt fn forest).head?

/-- C5 (counterexample): a match whose path is the empty string is
falsy in Python, so `search_fieldname_path` skips it and keeps
searching: it returns a later match instead of the first one in document
order. -/
theorem c5_counterexample :
    search_fieldname_path
        [.mk "E" "E" "E" "" "doctype" "" false
           [.mk "F" "F" "f" "" "string" "" true []],
         .mk "E" "E" "E" "" "doctype" "e2" false
           [.mk "F" "F" "f" "" "string" "p2" true []]]
        "E" "f" = some "p2" ∧
    locator_first_match
        [.mk "E" "E" "E" "" "doctype" "" false
           [.mk "F" "F" "f" "" "string" "" true []],
         .mk "E" "E" "E" "" "doctype" "e2" false
           [.mk "F" "F" "f" "" "string" "p2" true []]]
        "E" "f" = some "" ∧
    (some "p2" : Option String) ≠ some "" :=
  ⟨by rfl, by rfl, by decide⟩

/-! ## Claim C6: longest-match-first substitution -/

/-- C6 (counterexample): with touched paths `x` ⊂ `x.y` (codes
`e00000v`, `e00001v`) and the formula `"x.y x.y"`, the first match
consumes the separating space as its trailing delimiter, the second
occurrence of `x.y` is left unmatched by the long-path pass, and the
short path `x` then rewrites its code inside it: the compiled value is
`"e00001v e00000v.y"`, not `"e00001v e00001v"`. -/
theorem c6_counterexample :
    (data_to_engine 10
        [.mk "A" "A" "A" "" "doctype" "x" false
           [.mk "Q" "Q" "q" "" "numeric" "x.y" true []]]
        [⟨"A", "q", "x.y x.y"⟩] [[("A", [])]]).map
      (fun res => res.dados.map
        (fun h => (EngineHead.formulas h).map EngineFormula.value))
      = .ok [["e00001v e00000v.y"]] ∧
    ("e00001v e00000v.y" : String) ≠ "e00001v e00001v" :=
  ⟨by rfl, by decide⟩

/-! ## Claim C8: idempotence of substitution -/

/-- C8 (counterexample): formula-value substitution is not idempotent:
`"x x"` becomes `"e00000v x"` (the second occurrence loses its leading
delimiter to the first match), and a second pass rewrites the survivor,
giving `"e00000v e00000v"`. -/
theorem c8_counterexample :
    replace_value [("e00000v", "x")] "x x" = "e00000v x" ∧
    replace_value [("e00000v", "x")]
        (replace_value [("e00000v", "x")] "x x") = "e00000v e00000v" ∧
    ("e00000v e00000v" : String) ≠ "e00000v x" :=
  ⟨by rfl, by rfl, by decide⟩

/-! ## Claim C4: empty-store completeness (counterexample) -/

/-- C4 (counterexample): with an entity child ordered before a field
child, the empty-store walk resets the open item dict to `{}` before the
field is processed and `engine_data_item["fields"].append` raises
`KeyError`: compilation fails instead of emitting placeholders. -/
theorem c4_counterexample :
    data_to_engine 10
        [.mk "A" "A" "A" "" "doctype" "a" false
           [.mk "B" "B" "B" "" "doctype" "a.b" false [],
            .mk "Q" "Q" "q" "" "numeric" "a.q" true []]]
        [] [[("A", []), ("B", [])]] = .error "KeyError" := by
  rfl

/-- The sequential exact-match fold either leaves a value alone or turns
it into one of the table's codes. -/
theorem replace_path_field_cases (refs : List (String × String)) (p : String) :
    replace_path_field refs p = p ∨
    ∃ cp ∈ refs, replace_path_field refs p = cp.1 := by
  rw [replace_path_field]
  induction refs generalizing p with
  | nil => left; rfl
  | cons cp rest ih =>
    rw [List.foldl_cons]
    by_cases h : p == cp.2
    · simp only [h, if_true]
      rcases ih cp.1 with h1 | ⟨cq, hcq, h1⟩
      · right; exact ⟨cp, List.mem_cons_self _ _, h1⟩
      · right; exact ⟨cq, List.mem_cons_of_mem _ hcq, h1⟩
    · simp only [h, Bool.false_eq_true, if_false]
      rcases ih p with h1 | ⟨cq, hcq, h1⟩
      · left; exact h1
      · right; exact ⟨cq, List.mem_cons_of_mem _ hcq, h1⟩

/-- A value different from every path in the table is left unchanged. -/
theorem replace_path_field_id (refs : List (String × String)) (x : String)
    (h : ∀ cq ∈ refs, x ≠ cq.2) : replace_path_field refs x = x := by
  rw [replace_path_field]
  induction refs with
  | nil => rfl
  | cons cp rest ih =>
    rw [List.foldl_cons]
    have hne : (x == cp.2) = false := by
      simpa using h cp (List.mem_cons_self _ _)
    rw [hne]
    simp only [Bool.false_eq_true, if_false]
    exact ih (fun cq hcq => h cq (List.mem_cons_of_mem _ hcq))

/-- C8 (amended): the substitution is idempotent on structural `path`
fields (and on formula `path` keys, which use the same exact-match fold)
whenever no reference code collides with any path in the table — true of
the `e#####v` codes against dotted normalized paths.  Formula *value*
substitution is not idempotent in general (see the counterexample). -/
theorem c8_replace_path_field_idempotent (refs : List (String × String))
    (hcp : ∀ cp ∈ refs, ∀ cq ∈ refs, cp.1 ≠ cq.2) (p : String) :
    replace_path_field refs (replace_path_field refs p)
      = replace_path_field refs p := by
  rcases replace_path_field_cases refs p with h | ⟨cp, hmem, h⟩
  · rw [h]
    exact h
  · rw [h]
    exact replace_path_field_id refs cp.1 (fun cq hcq => hcp cp hmem cq hcq)

theorem c8_replace_path_field_idempotent_witness :
    replace_path_field [("e00001v", "x.y"), ("e00000v", "x")]
        (replace_path_field [("e00001v", "x.y"), ("e00000v", "x")] "x.y")
      = replace_path_field [("e00001v", "x.y"), ("e00000v", "x")] "x.y" :=
  c8_replace_path_field_idempotent [("e00001v", "x.y"), ("e00000v", "x")]
    (by decide) "x.y"

/-! ### C5 amended: the locator refinement under nonempty paths -/

mutual

/-- Every node path in the subtree is nonempty. -/
def paths_nonempty_node : TreeNode → Bool
  | .mk _ _ _ _ _ p _ cs => (p != "") && paths_nonempty_list cs

def paths_nonempty_list : List TreeNode → Bool
  | [] => true
  | c :: rest => paths_nonempty_node c && paths_nonempty_list rest

end

theorem paths_nonempty_list_mem {l : List TreeNode}
    (h : paths_nonempty_list l = true) :
    ∀ c ∈ l, paths_nonempty_node c = true := by
  induction l with
  | nil => intro c hc; exact absurd hc (List.not_mem_nil c)
  | cons x rest ih =>
    rw [paths_nonempty_list, Bool.and_eq_true] at h
    intro c hc
    rcases List.mem_cons.mp hc with rfl | hc'
    · exact h.1
    · exact ih h.2 c hc'

theorem paths_nonempty_node_path {n : TreeNode}
    (h : paths_nonempty_node n = true) : n.path ≠ "" := by
  cases n with
  | mk k d f fd t p dr cs =>
    rw [paths_nonempty_node, Bool.and_eq_true] at h
    simpa [TreeNode.path] using h.1

theorem paths_nonempty_node_children {n : TreeNode}
    (h : paths_nonempty_node n = true) :
    paths_nonempty_list n.children = true := by
  cases n with
  | mk k d f fd t p dr cs =>
    rw [paths_nonempty_node, Bool.and_eq_true] at h
    exact h.2

/-- Pointwise helper: if every member's matches are nonempty strings,
so are the concatenated list's. -/
theorem locator_matches_list_ne_aux (dt fn : String) (cs : List TreeNode)
    (hpoint : ∀ c ∈ cs, paths_nonempty_node c = true →
      ∀ m ∈ locator_matches dt fn c, m ≠ "")
    (hne : ∀ c ∈ cs, paths_nonempty_node c = true) :
    ∀ m ∈ locator_matches_list dt fn cs, m ≠ "" := by
  induction cs with
  | nil => intro m hm; exact absurd hm (List.not_mem_nil m)
  | cons c rest ih =>
    intro m hm
    rw [locator_matches_list, List.mem_append] at hm
    rcases hm with hm | hm
    · exact hpoint c (List.mem_cons_self _ _)
        (hne c (List.mem_cons_self _ _)) m hm
    · exact ih (fun x hx => hpoint x (List.mem_cons_of_mem _ hx))
        (fun x hx => hne x (List.mem_cons_of_mem _ hx)) m hm

/-- Every path the claim-side locator can return is the path of some node
in the subtree, hence nonempty under the hypothesis. -/
theorem locator_matches_ne_empty (dt fn : String) (node : TreeNode) :
    paths_nonempty_node node = true →
    ∀ m ∈ locator_matches dt fn node, m ≠ "" := by
  induction node using TreeNode.inductionOn with
  | h k d f fd t p dr cs ih =>
    intro h m hm
    rw [locator_matches] at hm
    split at hm
    · split at hm
      · rename_i c hc
        rw [List.mem_singleton] at hm
        subst hm
        have hcmem := List.mem_of_find?_eq_some hc
        have := paths_nonempty_list_mem (paths_nonempty_node_children h) c hcmem
        exact paths_nonempty_node_path this
      · exact absurd hm (List.not_mem_nil m)
    · exact locator_matches_list_ne_aux dt fn cs
        (fun c hc => ih c hc)
        (paths_nonempty_list_mem (paths_nonempty_node_children h)) m hm

theorem locator_matches_list_ne_empty (dt fn : String) (cs : List TreeNode)
    (h : paths_nonempty_list cs = true) :
    ∀ m ∈ locator_matches_list dt fn cs, m ≠ "" :=
  locator_matches_list_ne_aux dt fn cs
    (fun c _ => locator_matches_ne_empty dt fn c)
    (paths_nonempty_list_mem h)

/-- A truthy accumulated path passes straight through `traverse`. -/
theorem sfp_traverse_truthy (dt fn : String) (n : TreeNode) (q : String)
    (hq : q ≠ "") : sfp_traverse dt fn n (some q) = some q := by
  cases n with
  | mk k d f fd t p dr cs =>
    rw [sfp_traverse]
    have : truthyOpt (some q) = true := by simpa [truthyOpt] using hq
    rw [this]
    simp

theorem sfp_traverse_list_truthy (dt fn : String) (l : List TreeNode)
    (q : String) (hq : q ≠ "") :
    sfp_traverse_list dt fn l (some q) = some q := by
  induction l with
  | nil => rfl
  | cons c rest ih =>
    rw [sfp_traverse_list, sfp_traverse_truthy dt fn c q hq]
    exact ih

/-- Pointwise helper for the children fold of the traversal. -/
theorem sfp_traverse_list_eq_first_aux (dt fn : String) (cs : List TreeNode)
    (hpoint : ∀ c ∈ cs, paths_nonempty_node c = true →
      sfp_traverse dt fn c none = (locator_matches dt fn c).head?)
    (hne : ∀ c ∈ cs, paths_nonempty_node c = true) :
    sfp_traverse_list dt fn cs none
      = (locator_matches_list dt fn cs).head? := by
  induction cs with
  | nil => rfl
  | cons c rest ih =>
    rw [sfp_traverse_list, locator_matches_list]
    rw [hpoint c (List.mem_cons_self _ _) (hne c (List.mem_cons_self _ _))]
    rcases hmc : locator_matches dt fn c with _ | ⟨m, ms⟩
    · rw [List.nil_append]
      exact ih (fun x hx => hpoint x (List.mem_cons_of_mem _ hx))
        (fun x hx => hne x (List.mem_cons_of_mem _ hx))
    · have hm : m ≠ "" := by
        refine locator_matches_ne_empty dt fn c
          (hne c (List.mem_cons_self _ _)) m ?_
        rw [hmc]; exact List.mem_cons_self _ _
      rw [List.head?_cons, sfp_traverse_list_truthy dt fn rest m hm]
      rfl

/-- Under nonempty paths, the Python traversal with an empty accumulator
computes the head of the claim-side document-order match list. -/
theorem sfp_traverse_eq_first (dt fn : String) (node : TreeNode) :
    paths_nonempty_node node = true →
    sfp_traverse dt fn node none = (locator_matches dt fn node).head? := by
  induction node using TreeNode.inductionOn with
  | h k d f fd t p dr cs ih =>
    intro h
    rw [sfp_traverse, locator_matches]
    have ht : truthyOpt (none : Option String) = false := rfl
    rw [ht]
    simp only [Bool.false_eq_true, if_false]
    split
    · split <;> rfl
    · have hcs := paths_nonempty_node_children h
      have hlist := sfp_traverse_list_eq_first_aux dt fn cs
        (fun c hc => ih c hc) (paths_nonempty_list_mem hcs)
      rw [hlist]
      rcases hml : locator_matches_list dt fn cs with _ | ⟨m, ms⟩
      · rfl
      · have hm : m ≠ "" := by
          refine locator_matches_list_ne_empty dt fn cs hcs m ?_
          rw [hml]; exact List.mem_cons_self _ _
        rw [List.head?_cons]
        have : truthyOpt (some m) = true := by simpa [truthyOpt] using hm
        rw [this]
        simp

/-- C5 (amended): provided every node path in the forest is nonempty,
`search_fieldname_path` performs exactly the claimed depth-first search:
it returns the first matching path in document order — at an entity node
whose fieldname equals the entity type, the first direct child with the
field name contributes its path, other nodes pass the search to their
children — and absence when no match exists.  (An empty-string match
path is falsy in Python and would be skipped, see the counterexample.) -/
theorem c5_search_fieldname_path_first_match (forest : List TreeNode)
    (dt fn : String) (h : paths_nonempty_list forest = true) :
    search_fieldname_path forest dt fn = locator_first_match forest dt fn := by
  rw [search_fieldname_path, locator_first_match]
  induction forest with
  | nil => rfl
  | cons r rest ih =>
    rw [paths_nonempty_list, Bool.and_eq_true] at h
    rw [sfp_roots, locator_matches_list]
    rw [sfp_traverse_eq_first dt fn r h.1]
    rcases hmr : locator_matches dt fn r with _ | ⟨m, ms⟩
    · rw [List.nil_append]
      simpa using ih h.2
    · have hm : m ≠ "" := by
        refine locator_matches_ne_empty dt fn r h.1 m ?_
        rw [hmr]; exact List.mem_cons_self _ _
      rw [List.head?_cons]
      have htm : truthyOpt (some m) = true := by simpa [truthyOpt] using hm
      rw [htm]
      simp

theorem c5_search_fieldname_path_witness :
    paths_nonempty_list
        [TreeNode.mk "E" "E" "E" "" "doctype" "e" false
           [.mk "F" "F" "f" "" "string" "e.f" true []]] = true ∧
    search_fieldname_path
        [TreeNode.mk "E" "E" "E" "" "doctype" "e" false
           [.mk "F" "F" "f" "" "string" "e.f" true []]] "E" "f"
      = locator_first_match
        [TreeNode.mk "E" "E" "E" "" "doctype" "e" false
           [.mk "F" "F" "f" "" "string" "e.f" true []]] "E" "f" :=
  ⟨by rfl,
   c5_search_fieldname_path_first_match _ "E" "f" (by rfl)⟩

/-! ### C6 amended: the longest-first pass on a whole-token value -/

theorem chopLeading_nil_left (s : List Char) : chopLeading [] s = some s := by
  cases s <;> rfl

theorem chopLeading_cons_nil (a : Char) (ps : List Char) :
    chopLeading (a :: ps) [] = none := rfl

theorem chopLeading_cons_cons (a : Char) (ps : List Char) (c : Char)
    (cs : List Char) :
    chopLeading (a :: ps) (c :: cs)
      = (if a = c then chopLeading ps cs else none) := rfl

theorem chopLeading_self (l : List Char) : chopLeading l l = some [] := by
  induction l with
  | nil => rfl
  | cons c rest ih => rw [chopLeading_cons_cons, if_pos rfl]; exact ih

theorem chopLeading_some (p : List Char) :
    ∀ (s rest : List Char), chopLeading p s = some rest → s = p ++ rest := by
  induction p with
  | nil =>
    intro s rest h
    rw [chopLeading_nil_left] at h
    cases h
    rfl
  | cons a ps ih =>
    intro s rest h
    cases s with
    | nil =>
      rw [chopLeading_cons_nil] at h
      cases h
    | cons c cs =>
      rw [chopLeading_cons_cons] at h
      split at h
      · rename_i hac
        rw [hac, ih cs rest h]
        rfl
      · cases h

theorem chopLeading_none_of_longer (p s : List Char)
    (h : s.length < p.length) : chopLeading p s = none := by
  induction p generalizing s with
  | nil => simp at h
  | cons a ps ih =>
    cases s with
    | nil => rfl
    | cons c cs =>
      rw [chopLeading_cons_cons]
      split
      · exact ih cs (by simpa using h)
      · rfl

theorem regex_sub_go_zero (p c : List Char) (s : List Char) (bof : Bool) :
    regex_sub_go p c 0 s bof = [] := rfl

theorem regex_sub_go_succ (p c : List Char) (fuel : Nat) (s : List Char)
    (bof : Bool) :
    regex_sub_go p c (fuel + 1) s bof
      = (match match_at p c s bof with
         | some (repl, rest) => repl ++ regex_sub_go p c fuel rest false
         | none =>
           match s with
           | [] => []
           | ch :: rest => ch :: regex_sub_go p c fuel rest false) := rfl

theorem match_at_self (p c : List Char) :
    match_at p c p true = some (c, []) := by
  unfold match_at
  rw [chopLeading_self]
  rfl

theorem regex_sub_go_nil_false (p c : List Char) (fuel : Nat) :
    regex_sub_go p c fuel [] false = [] := by
  cases fuel <;> rfl

theorem string_mk_data (s : String) : String.mk s.data = s := by
  cases s; rfl

theorem string_data_inj {p t : String} (h : p.data = t.data) : p = t := by
  cases p with
  | mk d1 =>
    cases t with
    | mk d2 => exact congrArg String.mk h

/-- A whole-token value equal to the path is rewritten to the code. -/
theorem regex_sub_self (p c : String) : regex_sub p c p = c := by
  rw [regex_sub, regex_sub_go_succ, match_at_self]
  dsimp only
  rw [regex_sub_go_nil_false, List.append_nil, string_mk_data]

/-- With `bof = false`, an all-word-character suffix offers no `\W`
delimiter: the scan copies it. -/
theorem regex_sub_go_word_false (p c : List Char) :
    ∀ (s : List Char) (fuel : Nat), s.length ≤ fuel →
      s.all isWordAscii = true → regex_sub_go p c fuel s false = s := by
  intro s
  induction s with
  | nil => intro fuel _ _; exact regex_sub_go_nil_false p c fuel
  | cons ch rest ih =>
    intro fuel hfuel hw
    rw [List.all_cons, Bool.and_eq_true] at hw
    cases fuel with
    | zero => simp at hfuel
    | succ fuel =>
      have hma : match_at p c (ch :: rest) false = none := by
        unfold match_at
        simp [hw.1]
      rw [regex_sub_go_succ, hma]
      dsimp only
      rw [ih fuel (by simpa using hfuel) hw.2]

/-- On an all-word-character text, there is no `\W` delimiter position
and the only `^`-anchored match would need the path to equal the whole
text: the substitution copies the text unchanged. -/
theorem regex_sub_all_word (p c t : String)
    (hw : t.data.all isWordAscii = true) (hne : p.data ≠ t.data) :
    regex_sub p c t = t := by
  rw [regex_sub, regex_sub_go_succ]
  have hbof : match_at p.data c.data t.data true = none := by
    unfold match_at
    rcases hc : chopLeading p.data t.data with _ | rest
    · cases htd : t.data with
      | nil => rfl
      | cons c0 s' =>
        have hc0 : isWordAscii c0 = true := by
          rw [htd, List.all_cons, Bool.and_eq_true] at hw
          exact hw.1
        simp [hc0]
    · have hts := chopLeading_some _ _ _ hc
      cases rest with
      | nil =>
        exfalso
        exact hne (by rw [hts, List.append_nil])
      | cons ch rest' =>
        have hch : isWordAscii ch = true := by
          have hmem : ch ∈ t.data := by
            rw [hts]
            exact List.mem_append_right _ (List.mem_cons_self _ _)
          exact List.all_eq_true.mp hw ch hmem
        cases htd : t.data with
        | nil =>
          rw [htd] at hts
          exact absurd hts (by simp)
        | cons c0 s' =>
          have hc0 : isWordAscii c0 = true := by
            rw [htd, List.all_cons, Bool.and_eq_true] at hw
            exact hw.1
          simp [hch, hc0]
  rw [hbof]
  dsimp only
  conv_rhs => rw [← string_mk_data t]
  cases htd : t.data with
  | nil => rfl
  | cons ch rest =>
    rw [htd, List.all_cons, Bool.and_eq_true] at hw
    dsimp only
    rw [regex_sub_go_word_false p.data c.data rest (ch :: rest).length
      (by simp) hw.2]

/-- A path strictly longer than the remaining text can never match. -/
theorem regex_sub_go_long (p c : List Char) :
    ∀ (s : List Char) (fuel : Nat) (bof : Bool), s.length ≤ fuel →
      s.length < p.length → regex_sub_go p c fuel s bof = s := by
  intro s
  induction s with
  | nil =>
    intro fuel bof _ h
    cases fuel with
    | zero => rfl
    | succ fuel =>
      have hma : match_at p c [] bof = none := by
        unfold match_at
        rw [chopLeading_none_of_longer p [] (by simpa using h)]
        cases bof <;> rfl
      rw [regex_sub_go_succ, hma]
  | cons ch rest ih =>
    intro fuel bof hfuel h
    cases fuel with
    | zero => simp at hfuel
    | succ fuel =>
      have hrest : rest.length < p.length := by
        rw [List.length_cons] at h
        omega
      have hma : match_at p c (ch :: rest) bof = none := by
        unfold match_at
        dsimp only
        rw [chopLeading_none_of_longer p (ch :: rest) h,
          chopLeading_none_of_longer p rest hrest]
        cases bof <;> cases hwc : isWordAscii ch <;> simp [hwc]
      rw [regex_sub_go_succ, hma]
      dsimp only
      rw [ih fuel false (by simpa using hfuel) hrest]

theorem regex_sub_longer (p c t : String)
    (h : t.data.length < p.data.length) : regex_sub p c t = t := by
  rw [regex_sub,
    regex_sub_go_long p.data c.data t.data _ true (by omega) h, string_mk_data]

/-- C6 (amended): in the length-descending substitution table, a formula
value consisting of exactly one whole-token occurrence of the path `P2`
(the entire value) is rewritten to `P2`'s own code: the strictly longer
paths sorted before it cannot match, the `P2` pass rewrites the token to
the code, and — because the code is made of word characters only and
equals no other path — no later (shorter) path, in particular no
substring `P1` of `P2`, ever substitutes its code inside the result.
(Adjacent occurrences of `P2` sharing a single delimiter defeat this —
see the counterexample.) -/
theorem c6_longest_first_whole_token (P2 c2 : String)
    (longer shorter : List (String × String))
    (hlonger : ∀ cp ∈ longer, P2.data.length < cp.2.data.length)
    (hword : c2.data.all isWordAscii = true)
    (hshorter : ∀ cp ∈ shorter, cp.2.data ≠ c2.data) :
    replace_value (longer ++ (c2, P2) :: shorter) P2 = c2 := by
  rw [replace_value, List.foldl_append]
  have h1 : longer.foldl (fun acc cp => regex_sub cp.2 cp.1 acc) P2 = P2 := by
    induction longer with
    | nil => rfl
    | cons cp rest ih =>
      rw [List.foldl_cons,
        regex_sub_longer cp.2 cp.1 P2 (hlonger cp (List.mem_cons_self _ _))]
      exact ih (fun cq hcq => hlonger cq (List.mem_cons_of_mem _ hcq))
  rw [h1, List.foldl_cons, regex_sub_self]
  induction shorter with
  | nil => rfl
  | cons cp rest ih =>
    rw [List.foldl_cons,
      regex_sub_all_word cp.2 cp.1 c2 hword (hshorter cp (List.mem_cons_self _ _))]
    exact ih (fun cq hcq => hshorter cq (List.mem_cons_of_mem _ hcq))

theorem c6_longest_first_whole_token_witness :
    replace_value [("e00001v", "x.y"), ("e00000v", "x")] "x.y" = "e00001v" :=
  c6_longest_first_whole_token "x.y" "e00001v" [] [("e00000v", "x")]
    (by simp) (by decide) (by decide)

/-! ### C9 amended: code assignment and bijectivity -/

theorem add_path_to_list_nodup (st : WalkSt) (p : String)
    (h : st.paths.Nodup) : (add_path_to_list st p).paths.Nodup := by
  rw [add_path_to_list]
  split
  · exact h
  · rename_i hc
    refine List.Nodup.append h (List.nodup_singleton p) ?_
    intro a ha hb
    rw [List.mem_singleton] at hb
    subst hb
    exact hc (List.elem_iff.mpr ha)

/-- The entire walk only touches `paths` through `add_path_to_list`, so
a duplicate-free touched-path list stays duplicate-free. -/
theorem walk_paths_nodup (fuel : Nat) :
    (∀ (tree : List TreeNode) (fs : List Formula) (store : Store)
       (node : TreeNode) (data? : Option JVal) (reset : Bool) (st : WalkSt)
       (h : EngineHead) (st' : WalkSt), st.paths.Nodup →
       traverse_doctype fuel tree fs store node data? reset st = .ok (h, st') →
       st'.paths.Nodup) ∧
    (∀ (tree : List TreeNode) (fs : List Formula) (store : Store)
       (nodes : List TreeNode) (data : List Record) (path : String)
       (reset : Bool) (st : WalkSt) (its : List EngineItem) (st' : WalkSt),
       st.paths.Nodup →
       traverse_doctype_data fuel tree fs store nodes data path reset st
         = .ok (its, st') → st'.paths.Nodup) ∧
    (∀ (tree : List TreeNode) (fs : List Formula) (store : Store)
       (nodes : List TreeNode) (path : String) (ds : List Record)
       (acc : List EngineItem) (st : WalkSt) (acc' : List EngineItem)
       (st' : WalkSt), st.paths.Nodup →
       record_loop fuel tree fs store nodes path ds acc st = .ok (acc', st') →
       st'.paths.Nodup) ∧
    (∀ (tree : List TreeNode) (fs : List Formula) (store : Store) (d : Record)
       (path : String) (ns : List TreeNode) (acc : List EngineItem)
       (item : Option EngineItem) (st : WalkSt) (acc' : List EngineItem)
       (st' : WalkSt), st.paths.Nodup →
       node_loop fuel tree fs store d path ns acc item st = .ok (acc', st') →
       st'.paths.Nodup) ∧
    (∀ (tree : List TreeNode) (fs : List Formula) (store : Store)
       (path : String) (ns : List TreeNode) (acc : List EngineItem)
       (item : Option EngineItem) (st : WalkSt) (acc' : List EngineItem)
       (st' : WalkSt), st.paths.Nodup →
       placeholder_node_loop fuel tree fs store path ns acc item st
         = .ok (acc', st') → st'.paths.Nodup) := by
  induction fuel with
  | zero =>
    refine ⟨?_, ?_, ?_, ?_, ?_⟩
    · intro tree fs store node data? reset st h st' hnd hok
      rw [traverse_doctype.eq_def] at hok
      cases hok
    · intro tree fs store nodes data path reset st its st' hnd hok
      rw [traverse_doctype_data.eq_def] at hok
      cases hok
    · intro tree fs store nodes path ds acc st acc' st' hnd hok
      rw [record_loop.eq_def] at hok
      cases ds with
      | nil =>
        simp only [pure, Except.pure, Except.ok.injEq, Prod.mk.injEq] at hok
        rw [← hok.2]
        exact hnd
      | cons d rest => cases hok
    · intro tree fs store d path ns acc item st acc' st' hnd hok
      rw [node_loop.eq_def] at hok
      cases ns with
      | nil =>
        rcases item with _ | it <;>
          simp only [pure, Except.pure, Except.ok.injEq, Prod.mk.injEq] at hok <;>
          (rw [← hok.2]; exact hnd)
      | cons n rest => cases hok
    · intro tree fs store path ns acc item st acc' st' hnd hok
      rw [placeholder_node_loop.eq_def] at hok
      cases ns with
      | nil =>
        rcases item with _ | it <;>
          simp only [pure, Except.pure, Except.ok.injEq, Prod.mk.injEq] at hok <;>
          (rw [← hok.2]; exact hnd)
      | cons n rest => cases hok
  | succ fuel ih =>
    obtain ⟨ih1, ih2, ih3, ih4, ih5⟩ := ih
    refine ⟨?_, ?_, ?_, ?_, ?_⟩
    · intro tree fs store node data? reset st h st' hnd hok
      rw [traverse_doctype.eq_def] at hok
      dsimp only at hok
      rcases data? with _ | v
      · dsimp only at hok
        rcases hg : get_doctype_data store node.fieldname with _ | rs <;>
          rw [hg] at hok <;> dsimp only at hok
        · cases hok
        · rw [except_pure_bind] at hok
          obtain ⟨y, hy, hok⟩ := except_bind_ok hok
          obtain ⟨its, st2⟩ := y
          simp only [pure, Except.pure, Except.ok.injEq, Prod.mk.injEq] at hok
          rw [← hok.2]
          exact ih2 _ _ _ _ _ _ _ _ _ _
            (add_path_to_list_nodup st node.path hnd) hy
      · dsimp only at hok
        split at hok
        · rcases v with _ | _ | _ | _ | rows <;> dsimp only at hok <;>
            try cases hok
          case arr =>
            rw [except_pure_bind] at hok
            obtain ⟨y, hy, hok⟩ := except_bind_ok hok
            obtain ⟨its, st2⟩ := y
            simp only [pure, Except.pure, Except.ok.injEq, Prod.mk.injEq] at hok
            rw [← hok.2]
            exact ih2 _ _ _ _ _ _ _ _ _ _
              (add_path_to_list_nodup st node.path hnd) hy
        · rcases hg : get_doctype_data store node.fieldname with _ | rs <;>
            rw [hg] at hok <;> dsimp only at hok
          · cases hok
          · rw [except_pure_bind] at hok
            obtain ⟨y, hy, hok⟩ := except_bind_ok hok
            obtain ⟨its, st2⟩ := y
            simp only [pure, Except.pure, Except.ok.injEq, Prod.mk.injEq] at hok
            rw [← hok.2]
            exact ih2 _ _ _ _ _ _ _ _ _ _
              (add_path_to_list_nodup st node.path hnd) hy
    · intro tree fs store nodes data path reset st its st' hnd hok
      rw [traverse_doctype_data.eq_def] at hok
      dsimp only at hok
      split at hok <;> split at hok <;>
        first
          | (refine ih5 _ _ _ _ _ _ _ _ _ _ ?_ hok; exact hnd)
          | (refine ih3 _ _ _ _ _ _ _ _ _ _ ?_ hok; exact hnd)
    · intro tree fs store nodes path ds acc st acc' st' hnd hok
      rw [record_loop.eq_def] at hok
      cases ds with
      | nil =>
        simp only [pure, Except.pure, Except.ok.injEq, Prod.mk.injEq] at hok
        rw [← hok.2]
        exact hnd
      | cons d rest =>
        dsimp only at hok
        rcases h1 : List.lookup "name" d with _ | idv <;> rw [h1] at hok <;>
          dsimp only at hok
        · cases hok
        · rw [except_pure_bind] at hok
          try dsimp only at hok
          rcases h2 : List.lookup "creation" d with _ | crv <;> rw [h2] at hok <;>
            dsimp only at hok
          · cases hok
          · rw [except_pure_bind] at hok
            try dsimp only at hok
            obtain ⟨y, hy, hok⟩ := except_bind_ok hok
            obtain ⟨acc2, st2⟩ := y
            refine ih3 _ _ _ _ _ _ _ _ _ _ ?_ hok
            refine ih4 _ _ _ _ _ _ _ _ _ _ _ ?_ hy
            exact hnd
    · intro tree fs store d path ns acc item st acc' st' hnd hok
      rw [node_loop.eq_def] at hok
      cases ns with
      | nil =>
        rcases item with _ | it <;>
          simp only [pure, Except.pure, Except.ok.injEq, Prod.mk.injEq] at hok <;>
          (rw [← hok.2]; exact hnd)
      | cons n rest =>
        have hnd1 := add_path_to_list_nodup st n.path hnd
        rcases item with _ | it <;> dsimp only at hok <;> split at hok
        · split at hok
          · rcases h1 : List.lookup n.fieldname_data d with _ | v <;> rw [h1] at hok <;>
              dsimp only at hok
            · cases hok
            · rw [except_pure_bind] at hok
              try dsimp only at hok
              split at hok
              · cases hok
              · obtain ⟨y, hy, hok⟩ := except_bind_ok hok
                obtain ⟨ch, st2⟩ := y
                refine ih4 _ _ _ _ _ _ _ _ _ _ _ ?_ hok
                exact ih1 _ _ _ _ _ _ _ _ _ hnd1 hy
          · rcases h1 : get_doctype_data store n.fieldname with _ | rs <;> rw [h1] at hok <;>
              dsimp only at hok
            · cases hok
            · rw [except_pure_bind] at hok
              try dsimp only at hok
              split at hok
              · cases hok
              · obtain ⟨y, hy, hok⟩ := except_bind_ok hok
                obtain ⟨ch, st2⟩ := y
                refine ih4 _ _ _ _ _ _ _ _ _ _ _ ?_ hok
                exact ih1 _ _ _ _ _ _ _ _ _ hnd1 hy
        · cases hok
        · split at hok
          · rcases h1 : List.lookup n.fieldname_data d with _ | v <;> rw [h1] at hok <;>
              dsimp only at hok
            · cases hok
            · rw [except_pure_bind] at hok
              try dsimp only at hok
              split at hok
              · cases hok
              · obtain ⟨y, hy, hok⟩ := except_bind_ok hok
                obtain ⟨ch, st2⟩ := y
                refine ih4 _ _ _ _ _ _ _ _ _ _ _ ?_ hok
                exact ih1 _ _ _ _ _ _ _ _ _ hnd1 hy
          · rcases h1 : get_doctype_data store n.fieldname with _ | rs <;> rw [h1] at hok <;>
              dsimp only at hok
            · cases hok
            · rw [except_pure_bind] at hok
              try dsimp only at hok
              split at hok
              · cases hok
              · obtain ⟨y, hy, hok⟩ := except_bind_ok hok
                obtain ⟨ch, st2⟩ := y
                refine ih4 _ _ _ _ _ _ _ _ _ _ _ ?_ hok
                exact ih1 _ _ _ _ _ _ _ _ _ hnd1 hy
        · obtain ⟨idv, crv, flds, chs⟩ := it
          dsimp only at hok
          refine ih4 _ _ _ _ _ _ _ _ _ _ _ ?_ hok
          exact hnd1
    · intro tree fs store path ns acc item st acc' st' hnd hok
      rw [placeholder_node_loop.eq_def] at hok
      cases ns with
      | nil =>
        rcases item with _ | it <;>
          simp only [pure, Except.pure, Except.ok.injEq, Prod.mk.injEq] at hok <;>
          (rw [← hok.2]; exact hnd)
      | cons n rest =>
        have hnd1 := add_path_to_list_nodup st n.path hnd
        rcases item with _ | it <;> dsimp only at hok <;> split at hok
        · split at hok
          · cases hok
          · obtain ⟨y, hy, hok⟩ := except_bind_ok hok
            obtain ⟨ch, st2⟩ := y
            refine ih5 _ _ _ _ _ _ _ _ _ _ ?_ hok
            exact ih1 _ _ _ _ _ _ _ _ _ hnd1 hy
        · cases hok
        · split at hok
          · cases hok
          · obtain ⟨y, hy, hok⟩ := except_bind_ok hok
            obtain ⟨ch, st2⟩ := y
            refine ih5 _ _ _ _ _ _ _ _ _ _ ?_ hok
            exact ih1 _ _ _ _ _ _ _ _ _ hnd1 hy
        · obtain ⟨idv, crv, flds, chs⟩ := it
          dsimp only at hok
          refine ih5 _ _ _ _ _ _ _ _ _ _ ?_ hok
          exact hnd1

theorem roots_loop_paths_nodup (fuel : Nat) (tree : List TreeNode)
    (fs : List Formula) (store : Store) :
    ∀ (rs : List TreeNode) (acc : List EngineHead) (st : WalkSt)
      (acc' : List EngineHead) (st' : WalkSt), st.paths.Nodup →
      roots_loop fuel tree fs store rs acc st = .ok (acc', st') →
      st'.paths.Nodup := by
  intro rs
  induction rs with
  | nil =>
    intro acc st acc' st' hnd hok
    rw [roots_loop] at hok
    simp only [pure, Except.pure, Except.ok.injEq, Prod.mk.injEq] at hok
    rw [← hok.2]
    exact hnd
  | cons r rest ihr =>
    intro acc st acc' st' hnd hok
    rw [roots_loop] at hok
    obtain ⟨y, hy, hok⟩ := except_bind_ok hok
    obtain ⟨h, st2⟩ := y
    exact ihr _ _ _ _ ((walk_paths_nodup fuel).1 _ _ _ _ _ _ _ _ _ hnd hy) hok

theorem digitChar_inj (a b : Nat) (ha : a < 10) (hb : b < 10)
    (h : Nat.digitChar a = Nat.digitChar b) : a = b := by
  interval_cases a <;> interval_cases b <;> revert h <;> decide

theorem pad5_inj (i j : Nat) (hi : i < 100000) (hj : j < 100000)
    (h : pad5 i = pad5 j) : i = j := by
  rw [pad5, if_pos hi, pad5, if_pos hj] at h
  have hd : [Nat.digitChar (i / 10000 % 10), Nat.digitChar (i / 1000 % 10),
      Nat.digitChar (i / 100 % 10), Nat.digitChar (i / 10 % 10),
      Nat.digitChar (i % 10)]
      = [Nat.digitChar (j / 10000 % 10), Nat.digitChar (j / 1000 % 10),
         Nat.digitChar (j / 100 % 10), Nat.digitChar (j / 10 % 10),
         Nat.digitChar (j % 10)] := congrArg String.data h
  simp only [List.cons.injEq, and_true] at hd
  obtain ⟨h4, h3, h2, h1, h0⟩ := hd
  have e4 := digitChar_inj _ _ (Nat.mod_lt _ (by norm_num))
    (Nat.mod_lt _ (by norm_num)) h4
  have e3 := digitChar_inj _ _ (Nat.mod_lt _ (by norm_num))
    (Nat.mod_lt _ (by norm_num)) h3
  have e2 := digitChar_inj _ _ (Nat.mod_lt _ (by norm_num))
    (Nat.mod_lt _ (by norm_num)) h2
  have e1 := digitChar_inj _ _ (Nat.mod_lt _ (by norm_num))
    (Nat.mod_lt _ (by norm_num)) h1
  have e0 := digitChar_inj _ _ (Nat.mod_lt _ (by norm_num))
    (Nat.mod_lt _ (by norm_num)) h0
  omega

theorem code_of_index_inj (i j : Nat) (hi : i < 100000) (hj : j < 100000)
    (h : code_of_index i = code_of_index j) : i = j := by
  rw [code_of_index, code_of_index] at h
  refine pad5_inj i j hi hj (string_data_inj ?_)
  have hd := congrArg String.data h
  simp only [String.data_append] at hd
  rw [List.append_assoc, List.append_assoc] at hd
  have h1 := List.append_cancel_left hd
  exact List.append_cancel_right h1

/-- C9 (amended): for every successful compilation, the `referencia`
table assigns the code `e{i:05d}v` to the i-th first-touched path,
starting at `e00000v` (not `e00001v`); the touched paths are pairwise
distinct, the table's path column equals them, and — with at most 100000
paths — the code column is also duplicate-free, so the table is a
bijection between codes and distinct paths. -/
theorem c9_reference_codes (fuel : Nat) (tree : List TreeNode)
    (fs : List Formula) (store : Store) (res : EngineData)
    (hok : data_to_engine fuel tree fs store = .ok res) :
    ∃ touched : List String,
      touched.Nodup ∧
      res.referencia = build_references touched ∧
      res.referencia.map Prod.snd = touched ∧
      code_of_index 0 = "e00000v" ∧
      (touched.length ≤ 100000 → (res.referencia.map Prod.fst).Nodup) := by
  rw [data_to_engine] at hok
  obtain ⟨y, hy, hok⟩ := except_bind_ok hok
  obtain ⟨result, st⟩ := y
  simp only [pure, Except.pure, Except.ok.injEq] at hok
  refine ⟨st.paths, ?_, ?_, ?_, rfl, ?_⟩
  · exact roots_loop_paths_nodup fuel tree fs store tree [] ⟨[], []⟩ result st
      List.nodup_nil hy
  · rw [← hok]
  · rw [← hok]
    simp only [build_references, List.map_map]
    have : (Prod.snd ∘ fun ip : Nat × String => (code_of_index ip.1, ip.2))
        = Prod.snd := rfl
    rw [this, List.enum_map_snd]
  · intro hlen
    rw [← hok]
    simp only [build_references, List.map_map]
    have heq : (Prod.fst ∘ fun ip : Nat × String => (code_of_index ip.1, ip.2))
        = code_of_index ∘ Prod.fst := rfl
    rw [heq, ← List.map_map]
    rw [List.enum_map_fst]
    refine (List.nodup_range st.paths.length).map_on ?_
    intro i hi j hj hij
    rw [List.mem_range] at hi hj
    exact code_of_index_inj i j (by omega) (by omega) hij

theorem c9_reference_codes_witness :
    ∃ touched : List String,
      touched.Nodup ∧
      ({ referencia := [("e00000v", "a")],
         dados := [EngineHead.mk "e00000v" []
           [EngineItem.mk .null .null [] []]] } : EngineData).referencia
        = build_references touched ∧
      ({ referencia := [("e00000v", "a")],
         dados := [EngineHead.mk "e00000v" []
           [EngineItem.mk .null .null [] []]] } : EngineData).referencia.map
          Prod.snd = touched ∧
      code_of_index 0 = "e00000v" ∧
      (touched.length ≤ 100000 →
        (({ referencia := [("e00000v", "a")],
            dados := [EngineHead.mk "e00000v" []
              [EngineItem.mk .null .null [] []]] } : EngineData).referencia.map
            Prod.fst).Nodup) :=
  c9_reference_codes 10 [.mk "A" "A" "A" "" "doctype" "a" false []] []
    [[("A", [])]] _ (by rfl)

/-! ## Claim C4 (amended): the all-empty-store placeholder walk -/

/-- `v is None`. -/
def JVal.isNull : JVal → Bool
  | .null => true
  | _ => false

mutual

/-- Paths reachable by the data walk: a node's own path and, through
entity (`doctype`) nodes only, the paths of its children — the walk adds
a field child's path but never descends into its children. -/
def tree_paths_node : TreeNode → List String
  | .mk _ _ _ _ ty pa _ ch =>
    pa :: (if ty == "doctype" then tree_paths_list ch else [])

def tree_paths_list : List TreeNode → List String
  | [] => []
  | n :: ns => tree_paths_node n ++ tree_paths_list ns

end

mutual

/-- All fieldnames occurring in a forest. -/
def tree_names_node : TreeNode → List String
  | .mk _ _ fn _ _ _ _ ch => fn :: tree_names_list ch

def tree_names_list : List TreeNode → List String
  | [] => []
  | n :: ns => tree_names_node n ++ tree_names_list ns

end

mutual

/-- The placeholder item shape: null id and creation, every scalar field
value null, and recursively placeholder child heads. -/
def placeholder_item : EngineItem → Bool
  | .mk idv crv flds chs =>
    idv.isNull && crv.isNull && flds.all (fun f => f.value.isNull) &&
      placeholder_heads chs

/-- Exactly one item, itself a placeholder. -/
def placeholder_head : EngineHead → Bool
  | .mk _ _ items => (items.length == 1) && placeholder_items items

def placeholder_items : List EngineItem → Bool
  | [] => true
  | it :: rest => placeholder_item it && placeholder_items rest

def placeholder_heads : List EngineHead → Bool
  | [] => true
  | h :: rest => placeholder_head h && placeholder_heads rest

end

theorem tree_paths_node_eq (n : TreeNode) :
    tree_paths_node n
      = n.path :: (if n.type == "doctype" then tree_paths_list n.children
          else []) := by
  cases n
  rfl

theorem tree_names_node_eq (n : TreeNode) :
    tree_names_node n = n.fieldname :: tree_names_list n.children := by
  cases n
  rfl

theorem tree_paths_node_subset (n : TreeNode) (p : String)
    (h : p ∈ tree_paths_node n) : p ∈ n.path :: tree_paths_list n.children := by
  rw [tree_paths_node_eq] at h
  rcases List.mem_cons.mp h with h | h
  · rw [h]
    exact List.mem_cons_self _ _
  · refine List.mem_cons_of_mem _ ?_
    split at h
    · exact h
    · cases h

theorem placeholder_items_append (a b : List EngineItem) :
    placeholder_items (a ++ b)
      = (placeholder_items a && placeholder_items b) := by
  induction a with
  | nil => rfl
  | cons it rest ih =>
    show (placeholder_item it && placeholder_items (rest ++ b))
      = ((placeholder_item it && placeholder_items rest) && placeholder_items b)
    rw [ih, Bool.and_assoc]

theorem placeholder_heads_append (a b : List EngineHead) :
    placeholder_heads (a ++ b)
      = (placeholder_heads a && placeholder_heads b) := by
  induction a with
  | nil => rfl
  | cons h rest ih =>
    show (placeholder_head h && placeholder_heads (rest ++ b))
      = ((placeholder_head h && placeholder_heads rest) && placeholder_heads b)
    rw [ih, Bool.and_assoc]

theorem attach_child_last_length (h : EngineHead) :
    ∀ acc : List EngineItem, (attach_child_last acc h).length = acc.length := by
  intro acc
  induction acc with
  | nil => rfl
  | cons it rest ih =>
    cases rest with
    | nil =>
      obtain ⟨idv, crv, flds, chs⟩ := it
      rfl
    | cons it2 r2 =>
      simp only [attach_child_last, List.length_cons, ih]

theorem attach_child_last_placeholder (h : EngineHead) :
    ∀ acc : List EngineItem, placeholder_items acc = true →
      placeholder_head h = true →
      placeholder_items (attach_child_last acc h) = true := by
  intro acc
  induction acc with
  | nil => intro _ _; rfl
  | cons it rest ih =>
    intro hacc hh
    rw [show placeholder_items (it :: rest)
        = (placeholder_item it && placeholder_items rest) from rfl,
      Bool.and_eq_true] at hacc
    cases rest with
    | nil =>
      obtain ⟨idv, crv, flds, chs⟩ := it
      have h1 : placeholder_item (.mk idv crv flds chs) = true := hacc.1
      rw [show placeholder_item (.mk idv crv flds chs)
          = (idv.isNull && crv.isNull && flds.all (fun f => f.value.isNull)
            && placeholder_heads chs) from rfl] at h1
      show (placeholder_item (.mk idv crv flds (chs ++ [h]))
        && placeholder_items []) = true
      rw [show placeholder_item (.mk idv crv flds (chs ++ [h]))
          = (idv.isNull && crv.isNull && flds.all (fun f => f.value.isNull)
            && placeholder_heads (chs ++ [h])) from rfl]
      rw [placeholder_heads_append]
      simp only [Bool.and_eq_true] at h1 ⊢
      refine ⟨⟨h1.1, h1.2, ?_⟩, rfl⟩
      rw [show placeholder_heads [h]
          = (placeholder_head h && placeholder_heads []) from rfl, hh]
      rfl
    | cons it2 r2 =>
      simp only [attach_child_last]
      rw [show placeholder_items (it :: attach_child_last (it2 :: r2) h)
          = (placeholder_item it
            && placeholder_items (attach_child_last (it2 :: r2) h)) from rfl,
        Bool.and_eq_true]
      exact ⟨hacc.1, ih hacc.2 hh⟩

theorem add_path_to_list_mem (st : WalkSt) (p : String) :
    p ∈ (add_path_to_list st p).paths := by
  rw [add_path_to_list]
  split
  · next hc => exact List.mem_of_elem_eq_true hc
  · exact List.mem_append_right _ (List.mem_singleton.mpr rfl)

theorem add_path_to_list_mono (st : WalkSt) (q p : String)
    (h : p ∈ st.paths) : p ∈ (add_path_to_list st q).paths := by
  rw [add_path_to_list]
  split
  · exact h
  · exact List.mem_append_left _ h

theorem tree_paths_list_cons (n : TreeNode) (ns : List TreeNode) :
    tree_paths_list (n :: ns) = tree_paths_node n ++ tree_paths_list ns := rfl

theorem tree_names_list_cons (n : TreeNode) (ns : List TreeNode) :
    tree_names_list (n :: ns) = tree_names_node n ++ tree_names_list ns := rfl

theorem placeholder_item_mk (idv crv : JVal) (flds : List EngineField)
    (chs : List EngineHead) :
    placeholder_item (.mk idv crv flds chs)
      = (idv.isNull && crv.isNull && flds.all (fun f => f.value.isNull) &&
          placeholder_heads chs) := rfl

theorem placeholder_head_mk (p : String) (fos : List EngineFormula)
    (its : List EngineItem) :
    placeholder_head (.mk p fos its)
      = ((its.length == 1) && placeholder_items its) := rfl

theorem placeholder_items_snoc (acc : List EngineItem) (it : EngineItem)
    (h1 : placeholder_items acc = true) (h2 : placeholder_item it = true) :
    placeholder_items (acc ++ [it]) = true := by
  rw [placeholder_items_append, Bool.and_eq_true]
  refine ⟨h1, ?_⟩
  rw [show placeholder_items [it]
      = (placeholder_item it && placeholder_items []) from rfl, h2]
  rfl

theorem placeholder_heads_snoc (acc : List EngineHead) (h : EngineHead)
    (h1 : placeholder_heads acc = true) (h2 : placeholder_head h = true) :
    placeholder_heads (acc ++ [h]) = true := by
  rw [placeholder_heads_append, Bool.and_eq_true]
  refine ⟨h1, ?_⟩
  rw [show placeholder_heads [h]
      = (placeholder_head h && placeholder_heads []) from rfl, h2]
  rfl

theorem placeholder_item_add_field (idv crv : JVal) (flds : List EngineField)
    (chs : List EngineHead) (fld : EngineField)
    (h : placeholder_item (.mk idv crv flds chs) = true)
    (hf : fld.value.isNull = true) :
    placeholder_item (.mk idv crv (flds ++ [fld]) chs) = true := by
  rw [placeholder_item_mk] at h ⊢
  simp only [List.all_append, Bool.and_eq_true] at h ⊢
  refine ⟨⟨h.1.1, h.1.2, ?_⟩, h.2⟩
  simp only [List.all_cons, List.all_nil, hf, Bool.and_self]

/-- 1 for an open item, 0 after it was flushed to the accumulator. -/
def item_count : Option EngineItem → Nat
  | some _ => 1
  | none => 0

/-- The `ns = []` exit of the placeholder loop, shared by every fuel. -/
theorem placeholder_node_loop_nil (fuel : Nat) (tree : List TreeNode)
    (fs : List Formula) (store : Store) (path : String)
    (acc : List EngineItem) (item : Option EngineItem) (st : WalkSt)
    (acc' : List EngineItem) (st' : WalkSt)
    (hacc : placeholder_items acc = true)
    (hitem : ∀ it, item = some it → placeholder_item it = true)
    (hok : placeholder_node_loop fuel tree fs store path [] acc item st
      = .ok (acc', st')) :
    (placeholder_items acc' = true ∧
      acc'.length = acc.length + item_count item) ∧
    (∀ p ∈ st.paths, p ∈ st'.paths) ∧
    (∀ p ∈ tree_paths_list ([] : List TreeNode), p ∈ st'.paths) := by
  rw [placeholder_node_loop.eq_def] at hok
  rcases item with _ | it <;>
    simp only [pure, Except.pure, Except.ok.injEq, Prod.mk.injEq] at hok <;>
    obtain ⟨ha, hs⟩ := hok
  · subst ha
    subst hs
    exact ⟨⟨hacc, rfl⟩, fun p hp => hp, fun p hp => by cases hp⟩
  · subst ha
    subst hs
    refine ⟨⟨placeholder_items_snoc acc it hacc (hitem it rfl),
      by simp [item_count]⟩,
      fun p hp => hp, fun p hp => by cases hp⟩

/-- Fuel induction over the three walk functions reachable from an
all-empty store: every produced head carries exactly one placeholder
item, the touched-path list only grows, and every reachable path of the
visited nodes ends up touched. -/
theorem walk_empty_store_placeholder (fuel : Nat) (tree : List TreeNode)
    (fs : List Formula) (store : Store) :
    (∀ (node : TreeNode) (data? : Option JVal) (reset : Bool) (st : WalkSt)
       (h : EngineHead) (st' : WalkSt),
      (∀ name ∈ tree_names_node node, get_doctype_data store name = some []) →
      (data? = none ∨ data? = some (JVal.arr [])) →
      traverse_doctype fuel tree fs store node data? reset st = .ok (h, st') →
      placeholder_head h = true ∧
      (∀ p ∈ st.paths, p ∈ st'.paths) ∧
      (∀ p ∈ node.path :: tree_paths_list node.children, p ∈ st'.paths)) ∧
    (∀ (nodes : List TreeNode) (path : String) (reset : Bool) (st : WalkSt)
       (its : List EngineItem) (st' : WalkSt),
      (∀ name ∈ tree_names_list nodes, get_doctype_data store name = some []) →
      traverse_doctype_data fuel tree fs store nodes [] path reset st
        = .ok (its, st') →
      (placeholder_items its = true ∧ its.length = 1) ∧
      (∀ p ∈ st.paths, p ∈ st'.paths) ∧
      (∀ p ∈ tree_paths_list nodes, p ∈ st'.paths)) ∧
    (∀ (path : String) (ns : List TreeNode) (acc : List EngineItem)
       (item : Option EngineItem) (st : WalkSt) (acc' : List EngineItem)
       (st' : WalkSt),
      (∀ name ∈ tree_names_list ns, get_doctype_data store name = some []) →
      placeholder_items acc = true →
      (∀ it, item = some it → placeholder_item it = true) →
      placeholder_node_loop fuel tree fs store path ns acc item st
        = .ok (acc', st') →
      (placeholder_items acc' = true ∧
        acc'.length = acc.length + item_count item) ∧
      (∀ p ∈ st.paths, p ∈ st'.paths) ∧
      (∀ p ∈ tree_paths_list ns, p ∈ st'.paths)) := by
  induction fuel with
  | zero =>
    refine ⟨?_, ?_, ?_⟩
    · intro node data? reset st h st' _ _ hok
      rw [traverse_doctype.eq_def] at hok
      cases hok
    · intro nodes path reset st its st' _ hok
      rw [traverse_doctype_data.eq_def] at hok
      cases hok
    · intro path ns acc item st acc' st' _ hacc hitem hok
      cases ns with
      | nil =>
        exact placeholder_node_loop_nil 0 tree fs store path acc item st
          acc' st' hacc hitem hok
      | cons n rest =>
        rw [placeholder_node_loop.eq_def] at hok
        cases hok
  | succ fuel ih =>
    obtain ⟨ih1, ih2, ih3⟩ := ih
    refine ⟨?_, ?_, ?_⟩
    · intro node data? reset st h st' hnames hd hok
      rw [traverse_doctype.eq_def] at hok
      dsimp only at hok
      have hgdd : get_doctype_data store node.fieldname = some [] := by
        refine hnames node.fieldname ?_
        rw [tree_names_node_eq]
        exact List.mem_cons_self _ _
      have hnames2 : ∀ name ∈ tree_names_list node.children,
          get_doctype_data store name = some [] := by
        intro name hm
        refine hnames name ?_
        rw [tree_names_node_eq]
        exact List.mem_cons_of_mem _ hm
      rcases hd with rfl | rfl
      · dsimp only at hok
        rw [hgdd] at hok
        dsimp only at hok
        rw [except_pure_bind] at hok
        obtain ⟨y, hy, hok⟩ := except_bind_ok hok
        obtain ⟨items, st2⟩ := y
        simp only [pure, Except.pure, Except.ok.injEq, Prod.mk.injEq] at hok
        obtain ⟨hh, hst⟩ := hok
        subst hh
        subst hst
        obtain ⟨⟨hpi, hlen⟩, hmono, hcov⟩ := ih2 node.children node.path reset
          (add_path_to_list st node.path) items st2 hnames2 hy
        refine ⟨?_, ?_, ?_⟩
        · rw [placeholder_head_mk, hlen, hpi]
          rfl
        · intro p hp
          exact hmono p (add_path_to_list_mono st node.path p hp)
        · intro p hp
          rcases List.mem_cons.mp hp with rfl | hp
          · exact hmono _ (add_path_to_list_mem st _)
          · exact hcov p hp
      · dsimp only at hok
        rw [show jvalTruthy (JVal.arr []) = false from rfl] at hok
        rw [if_neg (fun hc => Bool.noConfusion hc)] at hok
        rw [hgdd] at hok
        dsimp only at hok
        rw [except_pure_bind] at hok
        obtain ⟨y, hy, hok⟩ := except_bind_ok hok
        obtain ⟨items, st2⟩ := y
        simp only [pure, Except.pure, Except.ok.injEq, Prod.mk.injEq] at hok
        obtain ⟨hh, hst⟩ := hok
        subst hh
        subst hst
        obtain ⟨⟨hpi, hlen⟩, hmono, hcov⟩ := ih2 node.children node.path reset
          (add_path_to_list st node.path) items st2 hnames2 hy
        refine ⟨?_, ?_, ?_⟩
        · rw [placeholder_head_mk, hlen, hpi]
          rfl
        · intro p hp
          exact hmono p (add_path_to_list_mono st node.path p hp)
        · intro p hp
          rcases List.mem_cons.mp hp with rfl | hp
          · exact hmono _ (add_path_to_list_mem st _)
          · exact hcov p hp
    · intro nodes path reset st its st' hnames hok
      rw [traverse_doctype_data.eq_def] at hok
      dsimp only at hok
      split at hok <;>
        simp only [List.drop_nil, List.isEmpty_nil, reduceIte] at hok <;>
        obtain ⟨⟨hpi, hlen⟩, hmono, hcov⟩ := ih3 path nodes []
          (some (.mk .null .null [] [])) _ its st' hnames rfl
          (fun it hit => by cases hit; rfl) hok <;>
        exact ⟨⟨hpi, by rw [hlen]; rfl⟩, fun p hp => hmono p hp,
          fun p hp => hcov p hp⟩
    · intro path ns acc item st acc' st' hnames hacc hitem hok
      cases ns with
      | nil =>
        exact placeholder_node_loop_nil (fuel + 1) tree fs store path acc
          item st acc' st' hacc hitem hok
      | cons n rest =>
        rw [placeholder_node_loop.eq_def] at hok
        have hnamesn : ∀ name ∈ tree_names_node n,
            get_doctype_data store name = some [] := by
          intro name hm
          refine hnames name ?_
          rw [tree_names_list_cons]
          exact List.mem_append_left _ hm
        have hnamesr : ∀ name ∈ tree_names_list rest,
            get_doctype_data store name = some [] := by
          intro name hm
          refine hnames name ?_
          rw [tree_names_list_cons]
          exact List.mem_append_right _ hm
        rcases item with _ | it <;> dsimp only at hok <;> split at hok
        · rename_i hdt
          split at hok
          · cases hok
          · obtain ⟨y, hy, hok⟩ := except_bind_ok hok
            obtain ⟨childHead, st2⟩ := y
            obtain ⟨hph, hmono1, hcov1⟩ := ih1 n (some (.arr [])) true
              (add_path_to_list st n.path) childHead st2 hnamesn
              (Or.inr rfl) hy
            obtain ⟨⟨hpi, hlen⟩, hmono2, hcov2⟩ := ih3 path rest
              (attach_child_last acc childHead) none st2 acc' st' hnamesr
              (attach_child_last_placeholder childHead acc hacc hph)
              (fun it2 hit2 => by cases hit2) hok
            refine ⟨⟨hpi, ?_⟩, ?_, ?_⟩
            · rw [hlen, attach_child_last_length]
            · intro p hp
              exact hmono2 p (hmono1 p (add_path_to_list_mono st n.path p hp))
            · intro p hp
              rw [tree_paths_list_cons] at hp
              rcases List.mem_append.mp hp with hp | hp
              · rw [tree_paths_node_eq, if_pos hdt] at hp
                exact hmono2 p (hcov1 p hp)
              · exact hcov2 p hp
        · cases hok
        · rename_i hdt
          split at hok
          · cases hok
          · obtain ⟨y, hy, hok⟩ := except_bind_ok hok
            obtain ⟨childHead, st2⟩ := y
            obtain ⟨hph, hmono1, hcov1⟩ := ih1 n (some (.arr [])) true
              (add_path_to_list st n.path) childHead st2 hnamesn
              (Or.inr rfl) hy
            obtain ⟨⟨hpi, hlen⟩, hmono2, hcov2⟩ := ih3 path rest
              (attach_child_last (acc ++ [it]) childHead) none st2 acc' st'
              hnamesr
              (attach_child_last_placeholder childHead (acc ++ [it])
                (placeholder_items_snoc acc it hacc (hitem it rfl)) hph)
              (fun it2 hit2 => by cases hit2) hok
            refine ⟨⟨hpi, ?_⟩, ?_, ?_⟩
            · rw [hlen, attach_child_last_length]
              simp [item_count]
            · intro p hp
              exact hmono2 p (hmono1 p (add_path_to_list_mono st n.path p hp))
            · intro p hp
              rw [tree_paths_list_cons] at hp
              rcases List.mem_append.mp hp with hp | hp
              · rw [tree_paths_node_eq, if_pos hdt] at hp
                exact hmono2 p (hcov1 p hp)
              · exact hcov2 p hp
        · rename_i hdt
          obtain ⟨idv, crv, flds, chs⟩ := it
          dsimp only at hok
          obtain ⟨⟨hpi, hlen⟩, hmono2, hcov2⟩ := ih3 path rest acc
            (some (.mk idv crv
              (flds ++ [{ path := n.path, type := n.type, value := .null }])
              chs))
            (add_path_to_list st n.path) acc' st' hnamesr hacc
            (fun it2 hit2 => by
              cases hit2
              exact placeholder_item_add_field idv crv flds chs _
                (hitem _ rfl) rfl)
            hok
          refine ⟨⟨hpi, hlen⟩, ?_, ?_⟩
          · intro p hp
            exact hmono2 p (add_path_to_list_mono st n.path p hp)
          · intro p hp
            rw [tree_paths_list_cons] at hp
            rcases List.mem_append.mp hp with hp | hp
            · rw [tree_paths_node_eq,
                if_neg (fun hc => hdt hc)] at hp
              rcases List.mem_cons.mp hp with rfl | hp
              · exact hmono2 _ (add_path_to_list_mem st _)
              · cases hp
            · exact hcov2 p hp

theorem replace_items_length (refs : List (String × String)) :
    ∀ its : List EngineItem, (replace_items refs its).length = its.length
  | [] => rfl
  | it :: rest => by
    rw [show replace_items refs (it :: rest)
        = replace_item refs it :: replace_items refs rest from rfl,
      List.length_cons, List.length_cons, replace_items_length refs rest]

mutual

/-- Path substitution never touches ids, creations, or scalar values, so
it preserves the placeholder shape of an item. -/
theorem replace_item_placeholder (refs : List (String × String)) :
    ∀ it : EngineItem, placeholder_item it = true →
      placeholder_item (replace_item refs it) = true
  | .mk idv crv flds chs, h => by
    rw [show replace_item refs (.mk idv crv flds chs)
        = .mk idv crv (flds.map (replace_field refs))
            (replace_heads refs chs) from rfl]
    rw [placeholder_item_mk] at h ⊢
    simp only [Bool.and_eq_true] at h ⊢
    refine ⟨⟨h.1.1, ?_⟩, replace_heads_placeholder refs chs h.2⟩
    rw [List.all_map]
    exact h.1.2

theorem replace_items_placeholder (refs : List (String × String)) :
    ∀ its : List EngineItem, placeholder_items its = true →
      placeholder_items (replace_items refs its) = true
  | [], _ => rfl
  | it :: rest, h => by
    rw [show replace_items refs (it :: rest)
        = replace_item refs it :: replace_items refs rest from rfl]
    rw [show placeholder_items (it :: rest)
        = (placeholder_item it && placeholder_items rest) from rfl,
      Bool.and_eq_true] at h
    rw [show placeholder_items
          (replace_item refs it :: replace_items refs rest)
        = (placeholder_item (replace_item refs it)
          && placeholder_items (replace_items refs rest)) from rfl,
      Bool.and_eq_true]
    exact ⟨replace_item_placeholder refs it h.1,
      replace_items_placeholder refs rest h.2⟩

theorem replace_head_placeholder (refs : List (String × String)) :
    ∀ h : EngineHead, placeholder_head h = true →
      placeholder_head (replace_head refs h) = true
  | .mk p fos its, hh => by
    rw [show replace_head refs (.mk p fos its)
        = .mk (replace_path_field refs p) (fos.map (replace_formula refs))
            (replace_items refs its) from rfl]
    rw [placeholder_head_mk] at hh ⊢
    simp only [Bool.and_eq_true] at hh ⊢
    refine ⟨?_, replace_items_placeholder refs its hh.2⟩
    rw [replace_items_length]
    exact hh.1

theorem replace_heads_placeholder (refs : List (String × String)) :
    ∀ hs : List EngineHead, placeholder_heads hs = true →
      placeholder_heads (replace_heads refs hs) = true
  | [], _ => rfl
  | h :: rest, hh => by
    rw [show replace_heads refs (h :: rest)
        = replace_head refs h :: replace_heads refs rest from rfl]
    rw [show placeholder_heads (h :: rest)
        = (placeholder_head h && placeholder_heads rest) from rfl,
      Bool.and_eq_true] at hh
    rw [show placeholder_heads
          (replace_head refs h :: replace_heads refs rest)
        = (placeholder_head (replace_head refs h)
          && placeholder_heads (replace_heads refs rest)) from rfl,
      Bool.and_eq_true]
    exact ⟨replace_head_placeholder refs h hh.1,
      replace_heads_placeholder refs rest hh.2⟩

end

theorem build_references_snd (ps : List String) :
    (build_references ps).map Prod.snd = ps := by
  rw [build_references, List.map_map]
  have hc : (Prod.snd ∘ fun ip : Nat × String => (code_of_index ip.1, ip.2))
      = Prod.snd := rfl
  rw [hc, List.enum_map_snd]

theorem roots_loop_empty_store (fuel : Nat) (tree : List TreeNode)
    (fs : List Formula) (store : Store) :
    ∀ (rs : List TreeNode) (acc : List EngineHead) (st : WalkSt)
      (heads : List EngineHead) (st' : WalkSt),
      (∀ name ∈ tree_names_list rs, get_doctype_data store name = some []) →
      placeholder_heads acc = true →
      roots_loop fuel tree fs store rs acc st = .ok (heads, st') →
      placeholder_heads heads = true ∧
      (∀ p ∈ st.paths, p ∈ st'.paths) ∧
      (∀ p ∈ tree_paths_list rs, p ∈ st'.paths) := by
  intro rs
  induction rs with
  | nil =>
    intro acc st heads st' _ hacc hok
    rw [roots_loop] at hok
    simp only [pure, Except.pure, Except.ok.injEq, Prod.mk.injEq] at hok
    obtain ⟨ha, hs⟩ := hok
    subst ha
    subst hs
    exact ⟨hacc, fun p hp => hp, fun p hp => by cases hp⟩
  | cons r rest ihr =>
    intro acc st heads st' hnames hacc hok
    rw [roots_loop] at hok
    obtain ⟨y, hy, hok⟩ := except_bind_ok hok
    obtain ⟨h, st2⟩ := y
    obtain ⟨hph, hmono1, hcov1⟩ :=
      (walk_empty_store_placeholder fuel tree fs store).1 r none false st h
        st2
        (fun name hm => hnames name
          (by rw [tree_names_list_cons]; exact List.mem_append_left _ hm))
        (Or.inl rfl) hy
    obtain ⟨hphs, hmono2, hcov2⟩ := ihr (acc ++ [h]) st2 heads st'
      (fun name hm => hnames name
        (by rw [tree_names_list_cons]; exact List.mem_append_right _ hm))
      (placeholder_heads_snoc acc h hacc hph) hok
    refine ⟨hphs, fun p hp => hmono2 p (hmono1 p hp), ?_⟩
    intro p hp
    rw [tree_paths_list_cons] at hp
    rcases List.mem_append.mp hp with hp | hp
    · exact hmono2 p (hcov1 p (tree_paths_node_subset r p hp))
    · exact hcov2 p hp

/-- C4 (amended): compiling a forest against a RecordStore that resolves
every fieldname of the forest to an empty record slice yields — when it
succeeds — exactly one EngineItem per EngineHead, the placeholder with
null id, null creation, and every scalar field value null (recursively
through child heads), and a referencia entry for every walk-reachable
path of the forest.  The original unconditional claim fails: the walk
itself can raise (`KeyError`) when a field child follows a doctype child,
as the counterexample shows, and a store with no entry at all for a name
raises `UnboundLocalError` (claim C7). -/
theorem c4_empty_store_placeholders (fuel : Nat) (tree : List TreeNode)
    (fs : List Formula) (store : Store) (res : EngineData)
    (hstore : ∀ name ∈ tree_names_list tree,
      get_doctype_data store name = some [])
    (hok : data_to_engine fuel tree fs store = .ok res) :
    placeholder_heads res.dados = true ∧
    ∀ p ∈ tree_paths_list tree, p ∈ res.referencia.map Prod.snd := by
  rw [data_to_engine] at hok
  obtain ⟨y, hy, hok⟩ := except_bind_ok hok
  obtain ⟨result, st⟩ := y
  simp only [pure, Except.pure, Except.ok.injEq] at hok
  obtain ⟨hphs, _, hcov⟩ := roots_loop_empty_store fuel tree fs store tree []
    ⟨[], []⟩ result st hstore rfl hy
  constructor
  · rw [← hok]
    exact replace_heads_placeholder _ result hphs
  · intro p hp
    rw [← hok]
    dsimp only
    rw [build_references_snd]
    exact hcov p hp

theorem c4_empty_store_placeholders_witness :
    placeholder_heads
      (EngineData.mk [("e00000v", "a")]
        [EngineHead.mk "e00000v" []
          [EngineItem.mk .null .null [] []]]).dados = true ∧
    ∀ p ∈ tree_paths_list [TreeNode.mk "A" "A" "A" "" "doctype" "a" false []],
      p ∈ (EngineData.mk [("e00000v", "a")]
        [EngineHead.mk "e00000v" []
          [EngineItem.mk .null .null [] []]]).referencia.map Prod.snd :=
  c4_empty_store_placeholders 10
    [TreeNode.mk "A" "A" "A" "" "doctype" "a" false []] [] [[("A", [])]] _
    (by
      intro name hm
      cases hm with
      | head => rfl
      | tail _ hm2 => cases hm2)
    (by rfl)

end EngineEntities
